import Mathlib

/-!
# Verification of the vscode-yscript compiler and solver core

This file gives a shallow embedding, in Lean 4, of the core of the
vscode-yscript extension:

* the lineage / path resolver (`findLineage`, `lineageToPath` in
  `src/extension.ts`),
* the CST-to-program compiler (`compileFromCst`, `ensureGetIn`),
* the logic encoder (`yscriptStatementToZ3`, `yscriptExprToZ3`, `sanitize`
  in `src/solve.ts`),
* the `incorporateFact` message handler of the graph editor and the stdout
  handler of `checkConsequences`.

Modelling conventions:

* A tree-sitter syntax node is modelled by `CST`: a type tag, the node's
  source text, a field-name table (field name to child index), a source
  range and the ordered list of children.  A node's *identity* (the
  tree-sitter `node.id`) is modelled by its location `Loc`, the list of
  child indices from the root; distinct nodes have distinct locations even
  when they are structurally equal, exactly as distinct tree-sitter nodes
  have distinct ids.
* Walking `parent` pointers from a node corresponds to enumerating the
  prefixes of its location (`chain`).
* JavaScript objects used as string-keyed maps are modelled by association
  lists in insertion order (`assocGet` / `assocSet`).  The loosely typed
  statement / expression objects that `ensureGetIn` builds are modelled by
  the recursive type `PNode`.
* JavaScript exceptions become `Except.error`; absent values (`undefined`)
  become `Option.none`.
-/

/-- A tree-sitter point (row, column). -/
structure Point where
  row : Nat
  column : Nat
deriving DecidableEq, Repr

/-- A source range `[startPosition, endPosition]`. -/
abbrev Rng := Point × Point

/-- Lookup in a JS-object-like association list (first binding wins;
JS objects have at most one binding per key). -/
def assocGet {α : Type} (k : String) : List (String × α) → Option α
  | [] => none
  | (k2, v) :: rest => if k2 = k then some v else assocGet k rest

/-- Update-or-append in a JS-object-like association list: updating an
existing key keeps its position, a new key is appended (JS objects keep
string keys in insertion order). -/
def assocSet {α : Type} (k : String) (v : α) : List (String × α) → List (String × α)
  | [] => [(k, v)]
  | (k2, w) :: rest => if k2 = k then (k2, v) :: rest else (k2, w) :: assocSet k v rest

/-- A concrete syntax tree node: type tag, source text, named-field table
(field name to child index), source range, ordered children. -/
inductive CST where
  | node (ty text : String) (fields : List (String × Nat))
      (startPosition endPosition : Point) (children : List CST)

def CST.ty : CST → String
  | .node t _ _ _ _ _ => t

def CST.text : CST → String
  | .node _ x _ _ _ _ => x

def CST.fields : CST → List (String × Nat)
  | .node _ _ f _ _ _ => f

def CST.startPos : CST → Point
  | .node _ _ _ s _ _ => s

def CST.endPos : CST → Point
  | .node _ _ _ _ e _ => e

def CST.children : CST → List CST
  | .node _ _ _ _ _ cs => cs

/-- The source range `[node.startPosition, node.endPosition]`. -/
def CST.rng (n : CST) : Rng := (n.startPos, n.endPos)

/-- `node.childForFieldName(f)`, together with the child's index among the
node's children (the index realises the child's location). -/
def CST.childForFieldName (n : CST) (f : String) : Option (Nat × CST) :=
  (assocGet f n.fields).bind fun i => (n.children.get? i).map fun c => (i, c)

/-- The location of a node: the list of child indices leading to it from
the root.  Locations model tree-sitter node identity (`node.id`). -/
abbrev Loc := List Nat

/-- The node of `root` at location `loc`, if any. -/
def CST.getNode : CST → Loc → Option CST
  | n, [] => some n
  | n, i :: rest => (n.children.get? i).bind fun c => c.getNode rest

/-- The children of a node located at `L`, paired with their locations. -/
def childEntriesGo (L : Loc) (i : Nat) : List CST → List (Loc × CST)
  | [] => []
  | c :: cs => (L ++ [i], c) :: childEntriesGo L (i + 1) cs

def childEntries (L : Loc) (n : CST) : List (Loc × CST) :=
  childEntriesGo L 0 n.children

/-- All prefixes of a location, shortest first (the root-to-node ancestor
walk obtained by following `parent` pointers and `unshift`-ing). -/
def prefixesOf (loc : Loc) : List Loc :=
  (List.range (loc.length + 1)).map fun k => loc.take k

/-- The full root-to-node chain of ancestors of the node at `loc` (each
paired with its location), as built by the `while (currentNode !== null)`
loop of `findLineage`. -/
def chain (root : CST) (loc : Loc) : List (Loc × CST) :=
  (prefixesOf loc).filterMap fun pre => (root.getNode pre).map fun n => (pre, n)

/-- The node types that survive the `findLineage` filter. -/
def interestingType (t : String) : Bool :=
  t = "and_expr" || t = "or_expr" || t = "not_expr" ||
  t = "if_then" || t = "only_if" || t = "rule_definition"

/-- `findLineage(node)`: the root-to-node ancestor chain filtered down to
the node itself (`n.id === node.id`) and the semantically interesting
ancestor types. -/
def findLineage (root : CST) (loc : Loc) : List (Loc × CST) :=
  (chain root loc).filter fun en => en.1 == loc || interestingType en.2.ty

/-- One path segment.  JavaScript pushes heterogeneous values: a rule-name
string or slot label (`str`), a child index from `findIndex` (`idx`, an
`Int` since `findIndex` can produce `-1`), or `undefined` (`undef`, from a
missing name field or a missing parent). -/
inductive Seg where
  | undef
  | str (s : String)
  | idx (n : Int)
deriving DecidableEq, Repr

/-- The property key a segment coerces to when used as a JS object key. -/
def segKey : Seg → String
  | .undef => "undefined"
  | .str s => s
  | .idx i => toString i

/-- The contribution of one lineage element to the path, given the
previous lineage element (`lineage[i - 1]`).  Mirrors the `switch` in
`lineageToPath`; `Except.error` models a thrown exception, `none` models
"no segment pushed". -/
def stepSeg (root : CST) (prev : Option (Loc × CST)) (cur : Loc × CST) :
    Except String (Option Seg) :=
  let l := cur.1
  let n := cur.2
  if n.ty = "rule_definition" then
    -- path.push(currentNode.childForFieldName('name')?.text)
    .ok (some (match n.childForFieldName "name" with
      | some (_, c) => .str c.text
      | none => .undef))
  else if n.ty = "if_then" || n.ty = "only_if" then
    -- path.push(currentNode.parent?.children.findIndex(child => child.id === currentNode.id))
    if l.isEmpty then .ok (some .undef)
    else
      match root.getNode l.dropLast with
      | none => .ok (some .undef)
      | some p =>
        match (childEntries l.dropLast p).findIdx? (fun en => en.1 == l) with
        | some i => .ok (some (.idx i))
        | none => .ok (some (.idx (-1)))
  else if n.ty = "and_expr" || n.ty = "or_expr" || n.ty = "not_expr" ||
      n.ty = "fact_expr" then
    match prev with
    | none => .error "TypeError: cannot read type of undefined"
    | some (lp, p) =>
      if p.ty = "if_then" || p.ty = "only_if" then
        .ok (some (.str "src_expr"))
      else if p.ty = "and_expr" || p.ty = "or_expr" then
        -- const [left, , right] = parentNode.children
        match (childEntries lp p).get? 0 with
        | none => .error "TypeError: cannot read id of undefined"
        | some en0 =>
          if en0.1 == l then .ok (some (.str "left"))
          else
            match (childEntries lp p).get? 2 with
            | none => .error "TypeError: cannot read id of undefined"
            | some en2 =>
              if en2.1 == l then .ok (some (.str "right"))
              else .error "Expression didn't match either operand of parent bool_expr"
      else if p.ty = "not_expr" then
        .ok (some (.str "negand"))
      else
        .ok none
  else
    .ok none

/-- The loop body of `lineageToPath`, threading the previous lineage
element and the accumulated path. -/
def lineagePathGo (root : CST) : Option (Loc × CST) → List Seg →
    List (Loc × CST) → Except String (List Seg)
  | _, acc, [] => .ok acc
  | prev, acc, cur :: rest => do
    let s ← stepSeg root prev cur
    lineagePathGo root (some cur)
      (acc ++ (match s with | none => [] | some sg => [sg])) rest

/-- `lineageToPath(lineage)`: convert a lineage to a path of segments. -/
def lineageToPath (root : CST) (lineage : List (Loc × CST)) :
    Except String (List Seg) :=
  lineagePathGo root none [] lineage

/-- `lineageToPath(findLineage(node))`, the path of the node at `loc`. -/
def pathOf (root : CST) (loc : Loc) : Except String (List Seg) :=
  lineageToPath root (findLineage root loc)

mutual
/-- Pre-order, depth-first enumeration of a subtree rooted at location
`L`, as performed by `gotoPreorderSucc` cursor walking. -/
def preorder (L : Loc) : CST → List (Loc × CST)
  | .node t x f s e cs => (L, .node t x f s e cs) :: preorderList L 0 cs

def preorderList : Loc → Nat → List CST → List (Loc × CST)
  | _, _, [] => []
  | L, i, c :: cs => preorder (L ++ [i]) c ++ preorderList L (i + 1) cs
end

/-! ## The compiled program model

`compileFromCst` builds a loosely typed nested object.  Statements and the
expression nodes inside them are plain JS objects mutated through
`ensureGetIn`; we model them by `PNode`: optional `type`, `descriptor` and
`range` properties plus a string-keyed map of further properties. -/

/-- A loosely typed program object node (a statement or expression object
as built by `compileFromCst` via `ensureGetIn`). -/
inductive PNode where
  | mk (ty descriptor : Option String) (rng : Option Rng)
      (kids : List (String × PNode))

def PNode.ty : PNode → Option String
  | .mk t _ _ _ => t

def PNode.descriptor : PNode → Option String
  | .mk _ d _ _ => d

def PNode.rng : PNode → Option Rng
  | .mk _ _ r _ => r

def PNode.kids : PNode → List (String × PNode)
  | .mk _ _ _ k => k

/-- A freshly created `{}`. -/
def PNode.empty : PNode := .mk none none none []

/-- `node.type = t` (assignment on a loosely typed object). -/
def PNode.setTy (t : String) : PNode → PNode
  | .mk _ d r k => .mk (some t) d r k

/-- The three assignments of the `fact_expr` case:
`factNode.type = 'fact_expr'; factNode.descriptor = ...; factNode.range = ...`. -/
def PNode.setFactFields (d : String) (rg : Rng) : PNode → PNode
  | .mk _ _ _ k => .mk (some "fact_expr") (some d) (some rg) k

/-- `ensureGetIn(root, path)` followed by a mutation of the returned
reference: walk `path`, reading `root[path[0]] || {}` (a missing key
yields a fresh `{}`), store the recursively updated child back under the
key, and apply `f` to the object at the end of the path. -/
def PNode.ensureSetIn : PNode → List String → (PNode → PNode) → PNode
  | nd, [], f => f nd
  | nd, k :: ks, f =>
    .mk nd.ty nd.descriptor nd.rng
      (assocSet k (((assocGet k nd.kids).getD PNode.empty).ensureSetIn ks f)
        nd.kids)

/-- Pure navigation along already-present keys (used to state the path
round-trip property). -/
def PNode.getIn : PNode → List String → Option PNode
  | nd, [] => some nd
  | nd, k :: ks =>
    match assocGet k nd.kids with
    | none => none
    | some c => c.getIn ks

/-- Navigation as `ensureGetIn` sees it: a missing key yields `{}` (and
hence `{}` for the rest of the walk). -/
def PNode.getInD : PNode → List String → PNode
  | nd, [] => nd
  | nd, k :: ks => ((assocGet k nd.kids).getD PNode.empty).getInD ks

/-- A determiner entry `{path, position}`. -/
structure Determiner where
  path : List Seg
  position : Rng
deriving DecidableEq, Repr

/-- A fact entry while compiling: `{determiners: [], requirers: {}}` where
`requirers` is the nested rule-name → statement-key map built by
`ensureGetIn` for deduplication.  Statement keys are the raw pushed values
(before JS coerces them to property-key strings), compared by their string
coercion `segKey`. -/
structure FactIn where
  determiners : List Determiner
  requirers : List (String × List Seg)

/-- `createFact()`. -/
def createFact : FactIn := ⟨[], []⟩

/-- A rule entry `{statements, name: {range}, range}`. -/
structure RuleC where
  statements : List PNode
  nameRange : Option Rng
  range : Option Rng

/-- The program object during compilation. -/
structure ProgramIn where
  rules : List (String × RuleC)
  facts : List (String × FactIn)

/-- A fact entry after the flattening post-pass: `requirers` has become a
flat list of `{path}` entries. -/
structure FactOut where
  determiners : List Determiner
  requirers : List (List Seg)

/-- The program returned by `compileFromCst`. -/
structure ProgramOut where
  rules : List (String × RuleC)
  facts : List (String × FactOut)

/-- `program.facts[d] = program.facts[d] || createFact()`. -/
def factsEnsure (facts : List (String × FactIn)) (d : String) :
    List (String × FactIn) :=
  match assocGet d facts with
  | some _ => facts
  | none => facts ++ [(d, createFact)]

/-- Mutate the fact entry for `d` (present after `factsEnsure`). -/
def factModify (facts : List (String × FactIn)) (d : String)
    (f : FactIn → FactIn) : List (String × FactIn) :=
  match assocGet d facts with
  | some fa => assocSet d (f fa) facts
  | none => facts

/-- JS property-key equality of two pushed segment values: keys are
compared after coercion to strings (`segKey`); the comparison is spelled
out case by case so that two index keys compare by their numeric value. -/
def segKeyEqb : Seg → Seg → Bool
  | .undef, .undef => true
  | .undef, .str s => "undefined" == s
  | .str s, .undef => s == "undefined"
  | .str s, .str s2 => s == s2
  | .idx i, .idx i2 => i == i2
  | .idx i, .str s => toString i == s
  | .str s, .idx i => s == toString i
  | .undef, .idx _ => false
  | .idx _, .undef => false

/-- `ensureGetIn(fact.requirers, [ruleName, statementIdx])`: ensure the
nested entry exists, creating the outer object and the inner key as
needed. -/
def requirersInsert (req : List (String × List Seg)) (rk : String)
    (sk : Seg) : List (String × List Seg) :=
  match assocGet rk req with
  | none => req ++ [(rk, [sk])]
  | some ks =>
    if ks.any (fun k => segKeyEqb k sk) then req
    else assocSet rk (ks ++ [sk]) req

/-- The JS property key of segment `segs[i]` obtained by array
destructuring: a missing element is `undefined`. -/
def segKeyO (o : Option Seg) : String :=
  match o with
  | none => "undefined"
  | some sg => segKey sg

/-- `undefined` for a missing destructured element. -/
def segOfOpt (o : Option Seg) : Seg :=
  match o with
  | none => .undef
  | some sg => sg

/-- Canonical natural-number string (`"7"` but not `"07"`), the form under
which a JS string key acts as an array index / integer-like object key. -/
def canonNat (s : String) : Option Nat :=
  match s.toNat? with
  | some n2 => if toString n2 = s then some n2 else none
  | none => none

/-- `statements[statementIdx]` index coercion: a number indexes when
non-negative; a string indexes when it is a canonical numeral; `undefined`
never indexes. -/
def stmtIndexOf (o : Option Seg) : Option Nat :=
  match o with
  | some (.idx i) => if i < 0 then none else some i.toNat
  | some (.str s) => canonNat s
  | _ => none

/-- `parseInt` on a JS property-key string: optional sign, then the
leading digit prefix; no digits yields `NaN` (modelled `undef`). -/
def parseIntStr (s : String) : Option Int :=
  let neg := s.startsWith "-"
  let s2 := if neg then s.drop 1 else s
  let ds := s2.takeWhile Char.isDigit
  if ds.isEmpty then none
  else
    match ds.toNat? with
    | some n2 => some (if neg then -(n2 : Int) else (n2 : Int))
    | none => none

/-- `parseInt(statementIdx)` applied during flattening; an index key parses
back to itself, a non-numeric key gives `NaN` (modelled `undef`). -/
def parseIntSeg : Seg → Seg
  | .idx i => .idx i
  | .undef => .undef
  | .str s =>
    match parseIntStr s with
    | some i => .idx i
    | none => (.undef)

/-- The numeric value of an integer-like JS property key (canonical
non-negative numeral), used for enumeration order. -/
def numKeyVal : Seg → Option Nat
  | .idx i => if i < 0 then none else some i.toNat
  | .str s => canonNat s
  | .undef => none

def numKeyValStr (s : String) : Option Nat := canonNat s

def insertByFst (x : Nat × Seg) : List (Nat × Seg) → List (Nat × Seg)
  | [] => [x]
  | y :: ys => if x.1 < y.1 then x :: y :: ys else y :: insertByFst x ys

def sortByFst : List (Nat × Seg) → List (Nat × Seg)
  | [] => []
  | x :: xs => insertByFst x (sortByFst xs)

/-- `for (const k in obj)` enumeration order over statement keys:
integer-like keys in ascending numeric order first, then the remaining
keys in insertion order. -/
def orderKeysJS (ks : List Seg) : List Seg :=
  (sortByFst (ks.filterMap fun k => (numKeyVal k).map fun n2 => (n2, k))).map
      Prod.snd
    ++ ks.filter fun k => numKeyVal k = none

def insertByFstStr (x : Nat × String) : List (Nat × String) → List (Nat × String)
  | [] => [x]
  | y :: ys => if x.1 < y.1 then x :: y :: ys else y :: insertByFstStr x ys

def sortByFstStr : List (Nat × String) → List (Nat × String)
  | [] => []
  | x :: xs => insertByFstStr x (sortByFstStr xs)

/-- `for (const k in obj)` enumeration order over rule-name keys. -/
def orderKeysStrJS (ks : List String) : List String :=
  (sortByFstStr (ks.filterMap fun k => (numKeyValStr k).map fun n2 => (n2, k))).map
      Prod.snd
    ++ ks.filter fun k => numKeyValStr k = none

/-- The flattening post-pass for one fact: the nested
rule → statement-key map becomes a flat list of `{path: [rule, parseInt(key)]}`. -/
def flattenFact (f : FactIn) : FactOut :=
  ⟨f.determiners,
    (orderKeysStrJS (f.requirers.map Prod.fst)).flatMap fun rk =>
      match assocGet rk f.requirers with
      | none => []
      | some ks => (orderKeysJS ks).map fun k => [Seg.str rk, parseIntSeg k]⟩

/-- The `// Flatten fact requirer hierarchies` post-pass. -/
def flattenProgram (S : ProgramIn) : ProgramOut :=
  ⟨S.rules, S.facts.map fun df => (df.1, flattenFact df.2)⟩

/-- One iteration of the `do ... while (gotoPreorderSucc(cursor))` switch
in `compileFromCst`, for the node `entry` of the tree `root`. -/
def compileStep (root : CST) (S : ProgramIn) (entry : Loc × CST) :
    Except String ProgramIn :=
  let loc := entry.1
  let n := entry.2
  if n.ty = "rule_definition" then
    match n.childForFieldName "name" with
    | none => .error "Found rule with no name"
    | some (_, nameNode) =>
      let ruleName := nameNode.text
      let r0 := (assocGet ruleName S.rules).getD ⟨[], none, none⟩
      .ok { S with
        rules := assocSet ruleName
          { r0 with nameRange := some nameNode.rng, range := some n.rng }
          S.rules }
  else if n.ty = "if_then" || n.ty = "only_if" then
    match n.childForFieldName "dest_fact" with
    | none => .error "Found statement with no dest_fact"
    | some (di, destNode) => do
      let descriptor := destNode.text
      let facts1 := factsEnsure S.facts descriptor
      let segs ← pathOf root (loc ++ [di])
      let facts2 := factModify facts1 descriptor fun f =>
        { f with determiners := f.determiners ++ [⟨segs.take 2, n.rng⟩] }
      let lineage := findLineage root loc
      let ancestorRule := lineage.find? fun en => en.2.ty == "rule_definition"
      let nm := ancestorRule.bind fun en =>
        (en.2.childForFieldName "name").map fun ic => ic.2.text
      match nm with
      | none => .error "Found rule with no name"
      | some ruleName =>
        -- `if (!ancestorRuleName)`: the empty string is falsy too
        if ruleName = "" then .error "Found rule with no name"
        else
          match assocGet ruleName S.rules with
          | none => .error "TypeError: cannot read statements of undefined"
          | some rc =>
            .ok { S with
              facts := facts2,
              rules := assocSet ruleName
                { rc with statements := rc.statements ++
                    [PNode.mk (some n.ty) none none
                      [("dest_fact",
                        PNode.mk none (some descriptor) (some destNode.rng) [])]] }
                S.rules }
  else if n.ty = "and_expr" || n.ty = "or_expr" || n.ty = "not_expr" then do
    let segs ← pathOf root loc
    let ruleSeg := segs.get? 0
    let stmtSeg := segs.get? 1
    let exprPath := segs.drop 2
    match assocGet (segKeyO ruleSeg) S.rules with
    | none => .error "TypeError: cannot read statements of undefined"
    | some rc =>
      if exprPath.isEmpty then
        .error "Path to expression should contain at least src_expr"
      else
        match stmtIndexOf stmtSeg with
        | none => .error "TypeError: cannot read properties of undefined"
        | some j =>
          match rc.statements.get? j with
          | none => .error "TypeError: cannot read properties of undefined"
          | some st =>
            let st2 := st.ensureSetIn (exprPath.map segKey) (PNode.setTy n.ty)
            .ok { S with
              rules := assocSet (segKeyO ruleSeg)
                { rc with statements := rc.statements.set j st2 } S.rules }
  else if n.ty = "fact_expr" then do
    let descriptor := n.text
    let segs ← pathOf root loc
    let ruleSeg := segs.get? 0
    let stmtSeg := segs.get? 1
    let exprPath := segs.drop 2
    let facts1 := factsEnsure S.facts descriptor
    let facts2 := factModify facts1 descriptor fun f =>
      { f with requirers :=
          requirersInsert f.requirers (segKeyO ruleSeg) (segOfOpt stmtSeg) }
    match assocGet (segKeyO ruleSeg) S.rules with
    | none => .error "TypeError: cannot read statements of undefined"
    | some rc =>
      match stmtIndexOf stmtSeg with
      | none => .error "TypeError: cannot read properties of undefined"
      | some j =>
        match rc.statements.get? j with
        | none => .error "TypeError: cannot read properties of undefined"
        | some st =>
          let st2 := st.ensureSetIn (exprPath.map segKey)
            (PNode.setFactFields descriptor n.rng)
          .ok { S with
            facts := facts2,
            rules := assocSet (segKeyO ruleSeg)
              { rc with statements := rc.statements.set j st2 } S.rules }
  else
    .ok S

/-- `compileFromCst(cursor)`: walk the tree pre-order, apply the per-node
switch, then flatten the requirer hierarchies. -/
def compileFromCst (root : CST) : Except String ProgramOut := do
  let S ← (preorder [] root).foldlM (compileStep root) ⟨[], []⟩
  pure (flattenProgram S)

/-! ## The logic encoder (`solve.ts`) -/

/-- A propositional formula as built through the Z3 AST constructors. -/
inductive Formula where
  | var (s : String)
  | conj (l r : Formula)
  | disj (l r : Formula)
  | neg (x : Formula)
  | impl (l r : Formula)
deriving DecidableEq, Repr

/-- `sanitize(factName)`: `factName.replace(/[ '"]/g, '_')`, i.e. replace
every space, single quote and double quote character by an underscore. -/
def sanitize (factName : String) : String :=
  ⟨factName.data.map fun c => if c = ' ' || c = '\'' || c = '"' then '_' else c⟩

/-- `descriptorToZ3`: the boolean constant named by the sanitized
descriptor. -/
def descriptorToZ3 (descriptor : String) : Formula := .var (sanitize descriptor)

theorem assocGet_sizeOf_lt {k : String} :
    ∀ (l : List (String × PNode)) v, assocGet k l = some v →
      sizeOf v < sizeOf l := by
  intro l
  induction l with
  | nil => intro v h; simp [assocGet] at h
  | cons hd tl ih =>
    intro v h
    obtain ⟨k2, w⟩ := hd
    simp only [assocGet] at h
    by_cases hk : k2 = k
    · simp [hk] at h
      subst h
      simp
      omega
    · simp [hk] at h
      have := ih v h
      simp
      omega

theorem kids_sizeOf_lt (nd : PNode) : sizeOf nd.kids < sizeOf nd := by
  obtain ⟨t, d, r, kids⟩ := nd
  simp [PNode.kids]

theorem assocGet_opt_sizeOf_lt (k : String) (nd : PNode) :
    sizeOf (assocGet k nd.kids) < 1 + sizeOf nd := by
  have hk := kids_sizeOf_lt nd
  cases h : assocGet k nd.kids with
  | none => simp; omega
  | some v =>
    have := assocGet_sizeOf_lt nd.kids v h
    simp
    omega

/-- `yscriptExprToZ3(expr)` over the loosely typed expression objects; the
argument is an `Option` because JS freely passes `undefined` (e.g. a
missing `left` property), on which the property access inside throws. -/
def yscriptExprToZ3 : Option PNode → Except String Formula
  | none => .error "TypeError: cannot read type of undefined"
  | some expr =>
    if expr.ty = some "and_expr" then do
      let lf ← yscriptExprToZ3 (assocGet "left" expr.kids)
      let rf ← yscriptExprToZ3 (assocGet "right" expr.kids)
      .ok (.conj lf rf)
    else if expr.ty = some "or_expr" then do
      let lf ← yscriptExprToZ3 (assocGet "left" expr.kids)
      let rf ← yscriptExprToZ3 (assocGet "right" expr.kids)
      .ok (.disj lf rf)
    else if expr.ty = some "not_expr" then do
      let xf ← yscriptExprToZ3 (assocGet "negand" expr.kids)
      .ok (.neg xf)
    else
      match expr.descriptor with
      | some d => .ok (descriptorToZ3 d)
      | none => .error "Unknown expression type"
  termination_by o => sizeOf o
  decreasing_by
    all_goals
      simp_wf
      exact assocGet_opt_sizeOf_lt _ _

/-- `yscriptStatementToZ3(expr)`: an `if_then` statement yields one
implication, an `only_if` statement yields two. -/
def yscriptStatementToZ3 (st : PNode) : Except String (List Formula) :=
  if st.ty = some "if_then" then do
    let srcExpr ← yscriptExprToZ3 (assocGet "src_expr" st.kids)
    let destFact ← yscriptExprToZ3 (assocGet "dest_fact" st.kids)
    .ok [.impl srcExpr destFact]
  else if st.ty = some "only_if" then do
    let srcExpr ← yscriptExprToZ3 (assocGet "src_expr" st.kids)
    let destFact ← yscriptExprToZ3 (assocGet "dest_fact" st.kids)
    .ok [.impl srcExpr destFact, .impl (.neg srcExpr) (.neg destFact)]
  else
    .error "Unknown statement type"

/-! ## The `incorporateFact` message handler (`extension.ts`) -/

/-- `delete obj[k]`. -/
def assocDel {α : Type} (k : String) : List (String × α) → List (String × α)
  | [] => []
  | (k2, v) :: rest => if k2 = k then rest else (k2, v) :: assocDel k rest

/-- The `case 'incorporateFact'` handler together with the `.then`
continuation on the solver's answer: record the requested value (`null`
deletes), and on an `unsat` answer restore the previous value if it was
*truthy*, else delete the key.  `value` is `message.value`
(`true | false | null`), `solverResult` is `data.result`. -/
def handleIncorporateFact (factAssertions : List (String × Bool))
    (descriptor : String) (value : Option Bool) (solverResult : String) :
    List (String × Bool) :=
  let previousValue := assocGet descriptor factAssertions
  let updated :=
    match value with
    | none => assocDel descriptor factAssertions
    | some b => assocSet descriptor b factAssertions
  if solverResult = "unsat" then
    -- `if (previousValue) { restore } else { delete }`:
    -- a previous value of `false` is falsy, so it is *deleted*, not restored
    match previousValue with
    | some true => assocSet descriptor true updated
    | _ => assocDel descriptor updated
  else updated

/-! ## The `checkConsequences` stdout handler (`solve.ts`) -/

/-- A reported fact value `{value, source}`. -/
structure OutFact where
  value : Bool
  source : String
deriving DecidableEq, Repr

/-- The message resolved by `checkConsequences`: the optional `result`
field and the `facts` object. -/
structure ResultMsg where
  result : Option String
  facts : List (String × OutFact)
deriving DecidableEq, Repr

/-- `s.startsWith(pre)` at the character level. -/
def strStartsWith (s pre : String) : Bool :=
  pre.data.isPrefixOf s.data

/-- `s.slice(5, -1)`: drop the first five and the last character. -/
def sliceFiveToLast (s : String) : String :=
  ⟨(s.data.drop 5).take ((s.data.drop 5).length - 1)⟩

/-- One iteration of the `consequences.slice(1).forEach(...)` loop: parse
a possibly negated constant, translate it back to a descriptor (throwing
on an unknown constant), and record the value — unless the descriptor
already has an entry (`if (outFacts[...]) return`). -/
def conseqStep (symbolsToDescriptors : List (String × String))
    (acc : List (String × OutFact)) (conseqAst : String) :
    Except String (List (String × OutFact)) :=
  let negated := strStartsWith conseqAst "(not "
  let constant := if negated then sliceFiveToLast conseqAst else conseqAst
  match assocGet constant symbolsToDescriptors with
  | none => .error "Received value for unknown fact"
  | some d =>
    match assocGet d acc with
    | some _ => .ok acc
    | none => .ok (acc ++ [(d, ⟨!negated, "consequence"⟩)])

/-- The `solverProcess.stdout.on('data', ...)` handler of
`checkConsequences`: pre-populate `outFacts` with every assertion tagged
`source: 'assertion'`, then on `sat` add each solver-reported consequence
— skipping any descriptor already present.  `consequences` is the list of
non-empty lines of the solver output. -/
def checkConsequencesHandle (assertions : List (String × Bool))
    (symbolsToDescriptors : List (String × String))
    (consequences : List String) : Except String ResultMsg :=
  let outFacts0 : List (String × OutFact) :=
    assertions.foldl (fun acc dv => assocSet dv.1 ⟨dv.2, "assertion"⟩ acc) []
  if consequences.head? = some "unsat" then
    .ok ⟨some "unsat", outFacts0⟩
  else if consequences.head? = some "sat" then do
    let facts ← (consequences.drop 1).foldlM
      (conseqStep symbolsToDescriptors) outFacts0
    .ok ⟨some "sat", facts⟩
  else
    .ok ⟨none, outFacts0⟩

/-! ## Grammar-image syntax trees

Modelled from the spec: the tree-sitter-yscript grammar itself ships only
as a compiled `tree-sitter-yscript.wasm` resource and is not part of the
repository sources.  Section 3 of the spec fixes the node inventory
(`rule_definition, only_if, if_then, and_expr, or_expr, not_expr,
fact_expr, descriptor, ...` plus named fields `name`, `dest_fact`,
`src_expr`, `negand`), and section 4.2 fixes the shapes the resolver
relies on: statements are the children of a rule's body node, a binary
connective has its left operand at child 0 and its right operand at child
2 (an operator token sits between them), and a `not_expr` holds its
operand beside a token.  `YProg` below captures exactly the trees of this
shape; `toCST` injects them into the raw `CST` type on which the compiler
operates.  All source positions are arbitrary annotations. -/

/-- A yscript boolean expression with source-range annotations. -/
inductive YExpr where
  | yfact (d : String) (s e : Point)
  | yand (l r : YExpr) (s e : Point)
  | yor (l r : YExpr) (s e : Point)
  | ynot (x : YExpr) (s e : Point)

/-- A statement: `only_if` (true) or `if_then` (false), destination fact
descriptor with its range, source expression, own range. -/
structure YStmt where
  onlyIf : Bool
  dest : String
  destRng : Rng
  src : YExpr
  rng : Rng

/-- A named rule with its statements. -/
structure YRule where
  name : String
  nameRng : Rng
  stmts : List YStmt
  rng : Rng

/-- A source file: a list of rule definitions. -/
structure YProg where
  rules : List YRule
  rng : Rng

def YExpr.toCST : YExpr → CST
  | .yfact d s e => .node "fact_expr" d [] s e []
  | .yand l r s e =>
    .node "and_expr" "" [] s e [l.toCST, .node "AND" "AND" [] s e [], r.toCST]
  | .yor l r s e =>
    .node "or_expr" "" [] s e [l.toCST, .node "OR" "OR" [] s e [], r.toCST]
  | .ynot x s e =>
    .node "not_expr" "" [] s e [.node "NOT" "NOT" [] s e [], x.toCST]

def YStmt.tyStr (st : YStmt) : String :=
  if st.onlyIf then "only_if" else "if_then"

def YStmt.toCST (st : YStmt) : CST :=
  .node st.tyStr "" [("src_expr", 0), ("dest_fact", 1)] st.rng.1 st.rng.2
    [st.src.toCST, .node "descriptor" st.dest [] st.destRng.1 st.destRng.2 []]

def YRule.toCST (r : YRule) : CST :=
  .node "rule_definition" "" [("name", 0)] r.rng.1 r.rng.2
    [.node "identifier" r.name [] r.nameRng.1 r.nameRng.2 [],
     .node "rule_body" "" [] r.rng.1 r.rng.2 (r.stmts.map YStmt.toCST)]

def YProg.toCST (p : YProg) : CST :=
  .node "source_file" "" [] p.rng.1 p.rng.2 (p.rules.map YRule.toCST)

/-- Well-formed input: rule names are pairwise distinct and non-empty
(grammar identifiers are non-empty; the compiler treats an empty ancestor
rule name as missing). -/
def goodNames (p : YProg) : Prop :=
  (p.rules.map YRule.name).Nodup ∧ ∀ r ∈ p.rules, r.name ≠ ""

/-! ### The reference compilation result on grammar-image trees -/

/-- The fully built expression object for a source expression: connectives
carry only their `type` tag, `fact_expr` leaves carry descriptor and
range, children sit under `left` / `right` / `negand`. -/
def exprSpec : YExpr → PNode
  | .yfact d s e => .mk (some "fact_expr") (some d) (some (s, e)) []
  | .yand l r _ _ =>
    .mk (some "and_expr") none none [("left", exprSpec l), ("right", exprSpec r)]
  | .yor l r _ _ =>
    .mk (some "or_expr") none none [("left", exprSpec l), ("right", exprSpec r)]
  | .ynot x _ _ =>
    .mk (some "not_expr") none none [("negand", exprSpec x)]

/-- The fully built statement object: type tag, `dest_fact` object, then
the `src_expr` tree (ensured after the push, hence second). -/
def stmtSpec (st : YStmt) : PNode :=
  .mk (some st.tyStr) none none
    [("dest_fact", .mk none (some st.dest) (some st.destRng) []),
     ("src_expr", exprSpec st.src)]

def ruleSpec (r : YRule) : RuleC :=
  ⟨r.stmts.map stmtSpec, some r.nameRng, some r.rng⟩

def rulesSpec (rs : List YRule) : List (String × RuleC) :=
  rs.map fun r => (r.name, ruleSpec r)

/-- The fact-index events of a compilation, in traversal order: a
determiner event per statement followed by a requirer event per
`fact_expr` occurrence of its source expression. -/
inductive FactEvent where
  | det (d rn : String) (j : Nat) (pos : Rng)
  | req (d rn : String) (j : Nat)

/-- The descriptors of the `fact_expr` leaves of an expression in
pre-order. -/
def exprFacts : YExpr → List String
  | .yfact d _ _ => [d]
  | .yand l r _ _ => exprFacts l ++ exprFacts r
  | .yor l r _ _ => exprFacts l ++ exprFacts r
  | .ynot x _ _ => exprFacts x

def stmtEvents (rn : String) (j : Nat) (st : YStmt) : List FactEvent :=
  .det st.dest rn j st.rng :: (exprFacts st.src).map fun d => .req d rn j

def stmtsEventsFrom (rn : String) : Nat → List YStmt → List FactEvent
  | _, [] => []
  | jd, s :: ss => stmtEvents rn jd s ++ stmtsEventsFrom rn (jd + 1) ss

def ruleEvents (r : YRule) : List FactEvent :=
  stmtsEventsFrom r.name 0 r.stmts

def progEvents (p : YProg) : List FactEvent :=
  (p.rules.map ruleEvents).flatten

/-- Apply one fact-index event exactly as the compiler does. -/
def applyEvent (facts : List (String × FactIn)) : FactEvent →
    List (String × FactIn)
  | .det d rn j pos =>
    factModify (factsEnsure facts d) d fun f =>
      { f with determiners :=
          f.determiners ++ [⟨[Seg.str rn, Seg.idx (Int.ofNat j)], pos⟩] }
  | .req d rn j =>
    factModify (factsEnsure facts d) d fun f =>
      { f with requirers := requirersInsert f.requirers rn (.idx (Int.ofNat j)) }

def factsSpec (p : YProg) : List (String × FactIn) :=
  (progEvents p).foldl applyEvent []

def progSpec (p : YProg) : ProgramIn :=
  ⟨rulesSpec p.rules, factsSpec p⟩

/-! ## Association-list lemmas -/

theorem assocGet_assocSet_same {α : Type} (k : String) (v : α) :
    ∀ l, assocGet k (assocSet k v l) = some v := by
  intro l
  induction l with
  | nil => simp [assocGet, assocSet]
  | cons hd tl ih =>
    obtain ⟨k2, w⟩ := hd
    by_cases hk : k2 = k <;> simp [assocGet, assocSet, hk, ih]

theorem assocGet_assocSet_ne {α : Type} (k k2 : String) (v : α) (hne : k ≠ k2) :
    ∀ l, assocGet k2 (assocSet k v l) = assocGet k2 l := by
  intro l
  induction l with
  | nil =>
    simp [assocGet, assocSet]
    intro h
    exact absurd h hne
  | cons hd tl ih =>
    obtain ⟨k3, w⟩ := hd
    by_cases hk : k3 = k
    · have h3 : ¬k3 = k2 := by rw [hk]; exact hne
      simp [assocSet, assocGet, hk, h3, hne]
    · by_cases h32 : k3 = k2
      · subst h32
        simp [assocSet, assocGet, hk]
      · simp [assocSet, assocGet, hk, h32, ih]

theorem assocSet_assocSet_same {α : Type} (k : String) (v w : α) :
    ∀ l, assocSet k v (assocSet k w l) = assocSet k v l := by
  intro l
  induction l with
  | nil => simp [assocSet]
  | cons hd tl ih =>
    obtain ⟨k2, u⟩ := hd
    by_cases hk : k2 = k <;> simp [assocSet, hk, ih]

theorem assocGet_eq_none_of_not_mem {α : Type} (k : String) :
    ∀ (l : List (String × α)), k ∉ l.map Prod.fst → assocGet k l = none := by
  intro l
  induction l with
  | nil => intro _; rfl
  | cons hd tl ih =>
    obtain ⟨k2, w⟩ := hd
    intro h
    rw [List.map_cons] at h
    simp only [List.mem_cons, not_or] at h
    obtain ⟨hne, hnotin⟩ := h
    have h21 : ¬k2 = k := fun he => hne he.symm
    simp [assocGet, h21, ih hnotin]

theorem assocSet_eq_append_of_not_mem {α : Type} (k : String) (v : α) :
    ∀ (l : List (String × α)), k ∉ l.map Prod.fst →
      assocSet k v l = l ++ [(k, v)] := by
  intro l
  induction l with
  | nil => intro _; rfl
  | cons hd tl ih =>
    obtain ⟨k2, w⟩ := hd
    intro h
    rw [List.map_cons] at h
    simp only [List.mem_cons, not_or] at h
    obtain ⟨hne, hnotin⟩ := h
    have h21 : ¬k2 = k := fun he => hne he.symm
    simp [assocSet, h21, ih hnotin]

theorem assocGet_append_left {α : Type} (k : String) (v : α) :
    ∀ (l1 l2 : List (String × α)), assocGet k l1 = some v →
      assocGet k (l1 ++ l2) = some v := by
  intro l1
  induction l1 with
  | nil => intro l2 h; simp [assocGet] at h
  | cons hd tl ih =>
    obtain ⟨k2, w⟩ := hd
    intro l2 h
    by_cases hk : k2 = k
    · simp [assocGet, hk] at h ⊢
      exact h
    · simp [assocGet, hk] at h ⊢
      exact ih l2 h

theorem assocGet_append_of_none {α : Type} (k : String) :
    ∀ (l1 l2 : List (String × α)), assocGet k l1 = none →
      assocGet k (l1 ++ l2) = assocGet k l2 := by
  intro l1
  induction l1 with
  | nil => intro l2 _; rfl
  | cons hd tl ih =>
    obtain ⟨k2, w⟩ := hd
    intro l2 h
    by_cases hk : k2 = k
    · simp [assocGet, hk] at h
    · simp [assocGet, hk] at h ⊢
      exact ih l2 h

theorem assocGet_isSome_of_mem {α : Type} (k : String) (v : α) :
    ∀ (l : List (String × α)), (k, v) ∈ l → (assocGet k l).isSome := by
  intro l
  induction l with
  | nil => intro h; simp at h
  | cons hd tl ih =>
    obtain ⟨k2, w⟩ := hd
    intro h
    simp only [assocGet]
    by_cases hk : k2 = k
    · simp [hk]
    · simp [hk]
      rcases List.mem_cons.mp h with h1 | h2
      · exact absurd (congrArg Prod.fst h1).symm hk
      · exact ih h2

theorem assocGet_mem {α : Type} (k : String) (v : α) :
    ∀ (l : List (String × α)), assocGet k l = some v → (k, v) ∈ l := by
  intro l
  induction l with
  | nil => intro h; simp [assocGet] at h
  | cons hd tl ih =>
    obtain ⟨k2, w⟩ := hd
    intro h
    by_cases hk : k2 = k
    · simp [assocGet, hk] at h
      simp [hk, h]
    · simp [assocGet, hk] at h
      exact List.mem_cons_of_mem _ (ih h)

/-! ## `ensureGetIn` (`PNode`) lemmas -/

theorem ensureSetIn_append (σ : List String) :
    ∀ (nd : PNode) (τ : List String) (f : PNode → PNode),
      nd.ensureSetIn (σ ++ τ) f = nd.ensureSetIn σ (fun x => x.ensureSetIn τ f) := by
  induction σ with
  | nil => intro nd τ f; rfl
  | cons k ks ih =>
    intro nd τ f
    simp [PNode.ensureSetIn, ih]

theorem ensureSetIn_ensureSetIn_same (σ : List String) :
    ∀ (nd : PNode) (g h : PNode → PNode),
      (nd.ensureSetIn σ g).ensureSetIn σ h = nd.ensureSetIn σ (fun x => h (g x)) := by
  induction σ with
  | nil => intro nd g h; rfl
  | cons k ks ih =>
    intro nd g h
    simp [PNode.ensureSetIn, PNode.kids, PNode.ty, PNode.descriptor, PNode.rng,
      assocGet_assocSet_same, assocSet_assocSet_same, ih]

theorem getIn_ensureSetIn_same (σ : List String) :
    ∀ (nd : PNode) (f : PNode → PNode),
      (nd.ensureSetIn σ f).getIn σ = some (f (nd.getInD σ)) := by
  induction σ with
  | nil => intro nd f; rfl
  | cons k ks ih =>
    intro nd f
    simp [PNode.ensureSetIn, PNode.getIn, PNode.getInD, PNode.kids,
      assocGet_assocSet_same, ih]

theorem empty_getInD : ∀ (ks : List String), PNode.empty.getInD ks = PNode.empty := by
  intro ks
  induction ks with
  | nil => rfl
  | cons k ks ih =>
    simp only [PNode.getInD]
    rw [show assocGet k PNode.empty.kids = none from rfl]
    exact ih

theorem getInD_of_getIn_none (σ : List String) :
    ∀ (nd : PNode), nd.getIn σ = none → nd.getInD σ = PNode.empty := by
  induction σ with
  | nil => intro nd h; simp [PNode.getIn] at h
  | cons k ks ih =>
    intro nd h
    simp only [PNode.getIn] at h
    simp only [PNode.getInD]
    cases hg : assocGet k nd.kids with
    | none => simp [empty_getInD]
    | some c =>
      rw [hg] at h
      simp at h ⊢
      exact ih c h

theorem ensureSetIn_congr (σ : List String) :
    ∀ (nd : PNode) (f g : PNode → PNode),
      f (nd.getInD σ) = g (nd.getInD σ) →
      nd.ensureSetIn σ f = nd.ensureSetIn σ g := by
  induction σ with
  | nil => intro nd f g h; exact h
  | cons k ks ih =>
    intro nd f g h
    simp only [PNode.getInD] at h
    simp only [PNode.ensureSetIn]
    rw [ih _ _ _ h]

theorem getIn_append (σ : List String) :
    ∀ (nd : PNode) (τ : List String),
      nd.getIn (σ ++ τ) = (nd.getIn σ).bind (·.getIn τ) := by
  induction σ with
  | nil => intro nd τ; rfl
  | cons k ks ih =>
    intro nd τ
    simp only [List.cons_append, PNode.getIn]
    cases assocGet k nd.kids with
    | none => rfl
    | some c => simp [ih]

/-! ## Chain and lineage lemmas -/

theorem filterMap_eq_map_of_forall {α β : Type} (l : List α) (f : α → Option β)
    (g : α → β) (h : ∀ a ∈ l, f a = some (g a)) : l.filterMap f = l.map g := by
  induction l with
  | nil => rfl
  | cons a l ih =>
    rw [List.filterMap_cons, h a (List.mem_cons_self a l), List.map_cons,
      ih fun b hb => h b (List.mem_cons_of_mem a hb)]

theorem getNode_append (a : Loc) :
    ∀ (root : CST) (b : Loc),
      root.getNode (a ++ b) = (root.getNode a).bind fun m => m.getNode b := by
  induction a with
  | nil => intro root b; rfl
  | cons i a ih =>
    intro root b
    simp only [List.cons_append, CST.getNode]
    cases root.children.get? i with
    | none => rfl
    | some c => simp [ih]

theorem getNode_take_isSome (root : CST) (loc : Loc) (nd : CST)
    (h : root.getNode loc = some nd) (k : Nat) :
    (root.getNode (loc.take k)).isSome := by
  have hsplit : loc = loc.take k ++ loc.drop k := (List.take_append_drop k loc).symm
  rw [hsplit, getNode_append] at h
  cases hg : root.getNode (loc.take k) with
  | none => rw [hg] at h; simp at h
  | some m => simp

/-- The node at a valid prefix, with the root as (never used) default. -/
def getNodeD (root : CST) (pre : Loc) : CST := (root.getNode pre).getD root

theorem chain_eq_map (root : CST) (loc : Loc) (nd : CST)
    (h : root.getNode loc = some nd) :
    chain root loc = (prefixesOf loc).map fun pre => (pre, getNodeD root pre) := by
  apply filterMap_eq_map_of_forall
  intro pre hpre
  simp only [prefixesOf, List.mem_map, List.mem_range] at hpre
  obtain ⟨k, _, hk⟩ := hpre
  have hs := getNode_take_isSome root loc nd h k
  rw [hk] at hs
  cases hg : root.getNode pre with
  | none => rw [hg] at hs; simp at hs
  | some m => simp [getNodeD, hg]

theorem getNodeD_self (root : CST) (loc : Loc) (nd : CST)
    (h : root.getNode loc = some nd) : getNodeD root loc = nd := by
  simp [getNodeD, h]

theorem prefixesOf_concat (loc : Loc) :
    prefixesOf loc = ((List.range loc.length).map fun k => loc.take k) ++ [loc] := by
  simp only [prefixesOf, List.range_succ, List.map_append, List.map_cons,
    List.map_nil, List.take_length]

theorem chain_concat_self (root : CST) (loc : Loc) (nd : CST)
    (h : root.getNode loc = some nd) :
    chain root loc =
      (((List.range loc.length).map fun k => loc.take k).map
        fun pre => (pre, getNodeD root pre)) ++ [(loc, nd)] := by
  rw [chain_eq_map root loc nd h, prefixesOf_concat, List.map_append]
  simp [getNodeD_self root loc nd h]

theorem mem_chain (root : CST) (loc : Loc) (nd : CST)
    (h : root.getNode loc = some nd) (en : Loc × CST)
    (hmem : en ∈ chain root loc) :
    en.1.length ≤ loc.length ∧ en.1 = loc.take en.1.length ∧
      root.getNode en.1 = some en.2 := by
  rw [chain_eq_map root loc nd h] at hmem
  simp only [List.mem_map, prefixesOf, List.mem_range] at hmem
  obtain ⟨pre, ⟨k, hk, hpre⟩, hen⟩ := hmem
  have hs := getNode_take_isSome root loc nd h k
  rw [hpre] at hs
  cases hg : root.getNode pre with
  | none => rw [hg] at hs; simp at hs
  | some m =>
    have h1 : en.1 = pre := by rw [← hen]
    have h2 : en.2 = m := by rw [← hen]; simp [getNodeD, hg]
    have hlen : pre.length = min k loc.length := by rw [← hpre, List.length_take]
    have hlen2 : pre.length ≤ loc.length := by omega
    refine ⟨h1 ▸ hlen2, ?_, by rw [h1, h2]; exact hg⟩
    rw [h1, ← hpre]
    have : min k loc.length ≤ k := Nat.min_le_left _ _
    rw [← hpre] at hlen
    rw [hlen]
    cases Nat.le_total k loc.length with
    | inl hle => rw [Nat.min_eq_left hle]
    | inr hge =>
      rw [Nat.min_eq_right hge]
      rw [List.take_of_length_le hge, List.take_length]

theorem chain_pairwise (root : CST) (loc : Loc) (nd : CST)
    (h : root.getNode loc = some nd) :
    (chain root loc).Pairwise fun a b => a.1.length < b.1.length := by
  rw [chain_eq_map root loc nd h]
  apply List.Pairwise.map
  · exact fun a b hab => hab
  simp only [prefixesOf]
  apply List.Pairwise.map
  · intro a b hab
    show (loc.take a).length < (loc.take b).length
    exact hab
  have hr : (List.range (loc.length + 1)).Pairwise (· < ·) :=
    List.pairwise_lt_range _
  apply hr.imp_of_mem
  intro a b ha hb hab
  simp only [List.mem_range] at ha hb
  simp only [List.length_take]
  omega

theorem findLineage_getLast (root : CST) (loc : Loc) (nd : CST)
    (h : root.getNode loc = some nd) :
    (findLineage root loc).getLast? = some (loc, nd) := by
  unfold findLineage
  rw [chain_concat_self root loc nd h, List.filter_append]
  have hp : (fun en : Loc × CST => en.1 == loc || interestingType en.2.ty)
      (loc, nd) = true := by simp
  rw [List.filter_cons, if_pos hp]
  simp [List.getLast?_concat]

/-- A demo program used to instantiate hypotheses of proved theorems:
```
rule Weather { nice_day ONLY IF sunny AND NOT raining }
rule Other   { q IF sunny OR q2 ;  r ONLY IF sunny }
```
with arbitrary distinct position annotations. -/
def demoPoint (n : Nat) : Point := ⟨n, 0⟩

def demoRng (n : Nat) : Rng := (demoPoint n, demoPoint (n + 1))

def demoProg : YProg :=
  ⟨[⟨"Weather", demoRng 1,
     [⟨true, "nice_day", demoRng 2,
       .yand (.yfact "sunny" (demoPoint 3) (demoPoint 4))
         (.ynot (.yfact "raining" (demoPoint 5) (demoPoint 6))
           (demoPoint 7) (demoPoint 8))
         (demoPoint 9) (demoPoint 10),
       demoRng 11⟩],
     demoRng 0⟩,
    ⟨"Other", demoRng 21,
     [⟨false, "q", demoRng 22,
       .yor (.yfact "sunny" (demoPoint 23) (demoPoint 24))
         (.yfact "q2" (demoPoint 25) (demoPoint 26))
         (demoPoint 27) (demoPoint 28),
       demoRng 29⟩,
      ⟨true, "r", demoRng 32,
       .yfact "sunny" (demoPoint 33) (demoPoint 34), demoRng 35⟩],
     demoRng 20⟩],
   demoRng 100⟩

def demoRoot : CST := demoProg.toCST

/-- C7: `findLineage(node)` returns the root-to-node ancestor walk in
root-first order (locations are prefixes of the node's location, of
strictly increasing length), it ends at the node itself, and it contains
exactly those elements of the full ancestor chain that are the node itself
or have one of the types rule_definition, and_expr, or_expr, not_expr,
if_then, only_if — every other ancestor (the source file root, rule
bodies, …) is excluded. -/
theorem C7_findLineage_characterisation (root : CST) (loc : Loc) (nd : CST)
    (h : root.getNode loc = some nd) :
    (findLineage root loc).getLast? = some (loc, nd) ∧
    (∀ en : Loc × CST, en ∈ findLineage root loc ↔
      (en ∈ chain root loc ∧ (en.1 = loc ∨ interestingType en.2.ty = true))) ∧
    (∀ en ∈ findLineage root loc,
      en.1 = loc.take en.1.length ∧ root.getNode en.1 = some en.2) ∧
    (findLineage root loc).Pairwise (fun a b => a.1.length < b.1.length) := by
  refine ⟨findLineage_getLast root loc nd h, ?_, ?_, ?_⟩
  · intro en
    unfold findLineage
    rw [List.mem_filter]
    simp [Bool.or_eq_true, beq_iff_eq]
  · intro en hen
    unfold findLineage at hen
    rw [List.mem_filter] at hen
    have := mem_chain root loc nd h en hen.1
    exact ⟨this.2.1, this.2.2⟩
  · exact (chain_pairwise root loc nd h).filter _

/-- Witness for C7 at a concrete node: the `not_expr` inside the Weather
rule of the demo program. -/
theorem C7_witness :
    (findLineage demoRoot [0, 1, 0, 0, 2]).getLast? =
        some ([0, 1, 0, 0, 2],
          (CST.node "not_expr" "" [] (demoPoint 7) (demoPoint 8)
            [.node "NOT" "NOT" [] (demoPoint 7) (demoPoint 8) [],
             .node "fact_expr" "raining" [] (demoPoint 5) (demoPoint 6) []])) ∧
    (∀ en : Loc × CST, en ∈ findLineage demoRoot [0, 1, 0, 0, 2] ↔
      (en ∈ chain demoRoot [0, 1, 0, 0, 2] ∧
        (en.1 = [0, 1, 0, 0, 2] ∨ interestingType en.2.ty = true))) ∧
    (∀ en ∈ findLineage demoRoot [0, 1, 0, 0, 2],
      en.1 = [0, 1, 0, 0, 2].take en.1.length ∧
        demoRoot.getNode en.1 = some en.2) ∧
    (findLineage demoRoot [0, 1, 0, 0, 2]).Pairwise
      (fun a b => a.1.length < b.1.length) :=
  C7_findLineage_characterisation demoRoot [0, 1, 0, 0, 2] _ rfl

/-- C5 counterexample: `sanitize` is *not* injective — the two distinct
descriptors `"has umbrella"` and `"has_umbrella"` named by the claim map
to the *same* variable name, because the space is replaced by the very
underscore the second descriptor already contains. -/
theorem C5_counterexample :
    sanitize "has umbrella" = sanitize "has_umbrella" ∧
    "has umbrella" ≠ "has_umbrella" := by
  constructor
  · decide
  · decide

/-- C5 (amended): the sanitization is a deterministic function that
replaces spaces, single quotes and double quotes with underscores, but it
is not injective: distinct descriptors such as `"has umbrella"` and
`"has_umbrella"` yield the same variable name. -/
theorem C5_sanitize_deterministic_not_injective :
    (∀ s t : String, s = t → sanitize s = sanitize t) ∧
    sanitize "has umbrella" = "has_umbrella" ∧
    sanitize "has_umbrella" = "has_umbrella" ∧
    sanitize "it's \"wet\"" = "it_s__wet_" := by
  refine ⟨fun s t h => by rw [h], by decide, by decide, by decide⟩

theorem C5_witness :
    sanitize "dry road" = sanitize "dry road" ∧
    sanitize "has umbrella" = "has_umbrella" :=
  ⟨C5_sanitize_deterministic_not_injective.1 "dry road" "dry road" rfl,
   C5_sanitize_deterministic_not_injective.2.1⟩

/-- C2 (code bug): when the consequence check answers `unsat` after an
assertion overwrote a previous value of `false`, the handler *deletes* the
assertion instead of restoring `false` — `if (previousValue)` treats the
stored `false` as missing.  Concretely: with prior assertion set
`{d: false}`, asserting `d = true` and receiving `unsat` leaves the set
empty, not `{d: false}`, so the fact-assertion set after the call differs
from the set before it. -/
theorem C2_previous_false_deleted_on_unsat :
    assocGet "d" [("d", false)] = some false ∧
    handleIncorporateFact [("d", false)] "d" (some true) "unsat" = [] ∧
    assocGet "d" (handleIncorporateFact [("d", false)] "d" (some true) "unsat")
      = none := by
  refine ⟨rfl, rfl, rfl⟩

/-! ## C9: assertion entries are never overwritten by consequences -/

/-- The initial `outFacts` object is the assertion list itself, tagged
`'assertion'` (assertion keys are unique, as JS object keys are). -/
theorem foldl_assocSet_fresh :
    ∀ (l : List (String × Bool)) (acc : List (String × OutFact)),
      (l.map Prod.fst).Nodup →
      (∀ k ∈ l.map Prod.fst, k ∉ acc.map Prod.fst) →
      l.foldl (fun acc dv => assocSet dv.1 ⟨dv.2, "assertion"⟩ acc) acc =
        acc ++ l.map fun dv => (dv.1, ⟨dv.2, "assertion"⟩) := by
  intro l
  induction l with
  | nil => intro acc _ _; simp
  | cons hd rest ih =>
    obtain ⟨d, v⟩ := hd
    intro acc hnd hfresh
    simp only [List.foldl_cons]
    rw [List.map_cons] at hnd
    have hdnotacc : d ∉ acc.map Prod.fst := hfresh d (by simp)
    rw [assocSet_eq_append_of_not_mem d _ acc hdnotacc]
    have hnd2 := (List.nodup_cons.mp hnd).2
    have hfresh2 : ∀ k ∈ rest.map Prod.fst,
        k ∉ (acc ++ [(d, (⟨v, "assertion"⟩ : OutFact))]).map Prod.fst := by
      intro k hk
      have h1 : k ∉ acc.map Prod.fst := hfresh k (by simp [hk])
      have h2 : ¬k = d := fun he => (List.nodup_cons.mp hnd).1 (he ▸ hk)
      simp only [List.map_append, List.mem_append, List.map_cons, List.map_nil,
        List.mem_singleton]
      rintro (hc | hc)
      · exact h1 hc
      · exact h2 hc
    rw [ih _ hnd2 hfresh2]
    simp

theorem assocGet_assertionMap :
    ∀ (l : List (String × Bool)), (l.map Prod.fst).Nodup →
      ∀ d v, (d, v) ∈ l →
        assocGet d (l.map fun dv => (dv.1, (⟨dv.2, "assertion"⟩ : OutFact))) =
          some ⟨v, "assertion"⟩ := by
  intro l
  induction l with
  | nil => intro _ d v hmem; simp at hmem
  | cons hd rest ih =>
    obtain ⟨d2, v2⟩ := hd
    intro hnd d v hmem
    rw [List.map_cons] at hnd
    rcases List.mem_cons.mp hmem with h1 | h2
    · have hda : d = d2 := congrArg Prod.fst h1
      have hva : v = v2 := congrArg Prod.snd h1
      subst hda
      subst hva
      simp [assocGet]
    · have hdne : ¬d2 = d := by
        intro he
        apply (List.nodup_cons.mp hnd).1
        rw [he]
        exact List.mem_map.mpr ⟨(d, v), h2, rfl⟩
      simp only [List.map_cons, assocGet, if_neg hdne]
      exact ih (List.nodup_cons.mp hnd).2 d v h2

theorem foldlM_except_invariant {α β : Type} (P : β → Prop)
    (step : β → α → Except String β)
    (hstep : ∀ acc a res, P acc → step acc a = .ok res → P res) :
    ∀ (l : List α) (acc : β) (res : β), P acc →
      l.foldlM step acc = .ok res → P res := by
  intro l
  induction l with
  | nil =>
    intro acc res hP h
    simp only [List.foldlM_nil] at h
    cases h
    exact hP
  | cons a rest ih =>
    intro acc res hP h
    simp only [List.foldlM_cons] at h
    cases hs : step acc a with
    | error e =>
      rw [hs] at h
      have h2 : (Except.error e : Except String β) = .ok res := h
      cases h2
    | ok acc2 =>
      rw [hs] at h
      have h2 : rest.foldlM step acc2 = .ok res := h
      exact ih acc2 res (hstep acc a acc2 hP hs) h2

/-- The invariant preserved by each consequence line. -/
def conseqInv (assertions : List (String × Bool))
    (acc : List (String × OutFact)) : Prop :=
  (∀ d v, (d, v) ∈ assertions → assocGet d acc = some ⟨v, "assertion"⟩) ∧
  (∀ d f, (d, f) ∈ acc → f.source = "consequence" →
    d ∉ assertions.map Prod.fst)

theorem conseqStep_preserves (assertions : List (String × Bool))
    (symbols : List (String × String)) :
    ∀ acc a res, conseqInv assertions acc →
      conseqStep symbols acc a = .ok res → conseqInv assertions res := by
  intro acc a res hP hstep2
  simp only [conseqStep] at hstep2
  split at hstep2
  · cases hstep2
  · rename_i d hc
    split at hstep2
    · cases hstep2
      exact hP
    · rename_i hg
      cases hstep2
      constructor
      · intro d2 v2 hmem
        exact assocGet_append_left d2 _ acc _ (hP.1 d2 v2 hmem)
      · intro d2 f2 hmem hsrc
        rcases List.mem_append.mp hmem with h1 | h2
        · exact hP.2 d2 f2 h1 hsrc
        · simp at h2
          obtain ⟨hd2, hf2⟩ := h2
          subst hd2
          intro hkey
          rcases List.mem_map.mp hkey with ⟨dv, hdv, hfst⟩
          have := hP.1 dv.1 dv.2 hdv
          rw [hfst, hg] at this
          cases this

/-- C9: in every result of the `checkConsequences` stdout handler, each
asserted descriptor is reported with its asserted value and source
`'assertion'`, and a solver-reported consequence for the same descriptor
never overwrites that entry: `source = 'consequence'` entries exist only
for descriptors absent from the assertion set. -/
theorem C9_assertions_not_overwritten
    (assertions : List (String × Bool))
    (symbols : List (String × String)) (consequences : List String)
    (res : ResultMsg)
    (hnd : (assertions.map Prod.fst).Nodup)
    (h : checkConsequencesHandle assertions symbols consequences = .ok res) :
    (∀ d v, (d, v) ∈ assertions →
      assocGet d res.facts = some ⟨v, "assertion"⟩) ∧
    (∀ d f, (d, f) ∈ res.facts → f.source = "consequence" →
      d ∉ assertions.map Prod.fst) := by
  have hout : assertions.foldl
      (fun acc dv => assocSet dv.1 (⟨dv.2, "assertion"⟩ : OutFact) acc) [] =
      assertions.map fun dv => (dv.1, (⟨dv.2, "assertion"⟩ : OutFact)) := by
    have := foldl_assocSet_fresh assertions [] hnd (by simp)
    simpa using this
  have hinit : conseqInv assertions
      (assertions.map fun dv => (dv.1, ⟨dv.2, "assertion"⟩)) := by
    constructor
    · intro d v hmem
      exact assocGet_assertionMap assertions hnd d v hmem
    · intro d f hmem hsrc
      rcases List.mem_map.mp hmem with ⟨dv, _, hdv⟩
      have hf : f = ⟨dv.2, "assertion"⟩ := (congrArg Prod.snd hdv).symm
      rw [hf] at hsrc
      simp at hsrc
  unfold checkConsequencesHandle at h
  rw [hout] at h
  by_cases h1 : consequences.head? = some "unsat"
  · rw [if_pos h1] at h
    cases h
    exact hinit
  · rw [if_neg h1] at h
    by_cases h2 : consequences.head? = some "sat"
    · rw [if_pos h2] at h
      cases hf : (consequences.drop 1).foldlM (conseqStep symbols)
          (assertions.map fun dv => (dv.1, ⟨dv.2, "assertion"⟩)) with
      | error e =>
        rw [hf] at h
        have h3 : (Except.error e : Except String ResultMsg) = .ok res := h
        cases h3
      | ok facts =>
        rw [hf] at h
        have h3 : (Except.ok (⟨some "sat", facts⟩ : ResultMsg) :
            Except String ResultMsg) = .ok res := h
        cases h3
        exact foldlM_except_invariant (conseqInv assertions)
          (conseqStep symbols) (conseqStep_preserves assertions symbols)
          (consequences.drop 1) _ facts hinit hf
    · rw [if_neg h2] at h
      cases h
      exact hinit

/-- Witness for C9: assertions `{A: true, C: false}`, solver answer
`sat` with consequences `B` and `(not C)`: `C` keeps its asserted entry. -/
theorem C9_witness :
    (∀ d v, (d, v) ∈ [("A", true), ("C", false)] →
      assocGet d (ResultMsg.facts
        ⟨some "sat",
         [("A", ⟨true, "assertion"⟩), ("C", ⟨false, "assertion"⟩),
          ("B", ⟨true, "consequence"⟩)]⟩) = some ⟨v, "assertion"⟩) ∧
    (∀ d f, (d, f) ∈ (ResultMsg.facts
        ⟨some "sat",
         [("A", ⟨true, "assertion"⟩), ("C", ⟨false, "assertion"⟩),
          ("B", ⟨true, "consequence"⟩)]⟩) → f.source = "consequence" →
      d ∉ [("A", true), ("C", false)].map Prod.fst) :=
  C9_assertions_not_overwritten [("A", true), ("C", false)]
    [("A", "A"), ("B", "B"), ("C", "C")] ["sat", "B", "(not C)"]
    ⟨some "sat",
     [("A", ⟨true, "assertion"⟩), ("C", ⟨false, "assertion"⟩),
      ("B", ⟨true, "consequence"⟩)]⟩
    (by decide) rfl

/-! ## C1: the statement encoding of the logic encoder -/

/-- C1: `yscriptStatementToZ3` maps an `if_then` statement to exactly one
formula `src ⟹ dest` and an `only_if` statement to exactly the two
formulas `src ⟹ dest` and `¬src ⟹ ¬dest`, where `src` is the recursive
encoding of the statement's `src_expr` (`and_expr` as conjunction,
`or_expr` as disjunction, `not_expr` as negation, `fact_expr` as its
descriptor's boolean variable) and `dest` is the boolean variable for the
`dest_fact` descriptor. -/
theorem C1_statement_encoding :
    (∀ (st sn dn : PNode) (d : String) (fs : Formula),
      st.ty = some "if_then" →
      assocGet "src_expr" st.kids = some sn →
      assocGet "dest_fact" st.kids = some dn →
      dn.ty = none → dn.descriptor = some d →
      yscriptExprToZ3 (some sn) = .ok fs →
      yscriptStatementToZ3 st = .ok [.impl fs (.var (sanitize d))]) ∧
    (∀ (st sn dn : PNode) (d : String) (fs : Formula),
      st.ty = some "only_if" →
      assocGet "src_expr" st.kids = some sn →
      assocGet "dest_fact" st.kids = some dn →
      dn.ty = none → dn.descriptor = some d →
      yscriptExprToZ3 (some sn) = .ok fs →
      yscriptStatementToZ3 st =
        .ok [.impl fs (.var (sanitize d)),
             .impl (.neg fs) (.neg (.var (sanitize d)))]) ∧
    (∀ (nd l r : PNode) (fl fr : Formula),
      nd.ty = some "and_expr" →
      assocGet "left" nd.kids = some l →
      assocGet "right" nd.kids = some r →
      yscriptExprToZ3 (some l) = .ok fl →
      yscriptExprToZ3 (some r) = .ok fr →
      yscriptExprToZ3 (some nd) = .ok (.conj fl fr)) ∧
    (∀ (nd l r : PNode) (fl fr : Formula),
      nd.ty = some "or_expr" →
      assocGet "left" nd.kids = some l →
      assocGet "right" nd.kids = some r →
      yscriptExprToZ3 (some l) = .ok fl →
      yscriptExprToZ3 (some r) = .ok fr →
      yscriptExprToZ3 (some nd) = .ok (.disj fl fr)) ∧
    (∀ (nd x : PNode) (fx : Formula),
      nd.ty = some "not_expr" →
      assocGet "negand" nd.kids = some x →
      yscriptExprToZ3 (some x) = .ok fx →
      yscriptExprToZ3 (some nd) = .ok (.neg fx)) ∧
    (∀ (nd : PNode) (d : String),
      nd.ty = some "fact_expr" → nd.descriptor = some d →
      yscriptExprToZ3 (some nd) = .ok (.var (sanitize d))) := by
  have hdest : ∀ (dn : PNode) (d : String), dn.ty = none →
      dn.descriptor = some d →
      yscriptExprToZ3 (some dn) = .ok (.var (sanitize d)) := by
    intro dn d hty hd
    rw [yscriptExprToZ3, hty, hd]
    rfl
  refine ⟨?_, ?_, ?_, ?_, ?_, ?_⟩
  · intro st sn dn d fs hty hsrc hdn hdnty hdnd hfs
    unfold yscriptStatementToZ3
    rw [hty, hsrc, hfs, hdn, hdest dn d hdnty hdnd]
    rfl
  · intro st sn dn d fs hty hsrc hdn hdnty hdnd hfs
    unfold yscriptStatementToZ3
    rw [hty, hsrc, hfs, hdn, hdest dn d hdnty hdnd]
    rfl
  · intro nd l r fl fr hty hl hr hfl hfr
    rw [yscriptExprToZ3, hty, hl, hr, hfl, hfr]
    rfl
  · intro nd l r fl fr hty hl hr hfl hfr
    rw [yscriptExprToZ3, hty, hl, hr, hfl, hfr]
    rfl
  · intro nd x fx hty hx hfx
    rw [yscriptExprToZ3, hty, hx, hfx]
    rfl
  · intro nd d hty hd
    rw [yscriptExprToZ3, hty, hd]
    rfl

/-- Witness for C1 on the concrete statement `c ONLY IF a AND b` and the
concrete `if_then` statement `c IF a`. -/
theorem C1_witness :
    yscriptStatementToZ3
        (.mk (some "only_if") none none
          [("dest_fact", .mk none (some "c") none []),
           ("src_expr", .mk (some "and_expr") none none
             [("left", .mk (some "fact_expr") (some "a") none []),
              ("right", .mk (some "fact_expr") (some "b") none [])])]) =
      .ok [.impl (.conj (.var (sanitize "a")) (.var (sanitize "b")))
             (.var (sanitize "c")),
           .impl (.neg (.conj (.var (sanitize "a")) (.var (sanitize "b"))))
             (.neg (.var (sanitize "c")))] ∧
    yscriptStatementToZ3
        (.mk (some "if_then") none none
          [("dest_fact", .mk none (some "c") none []),
           ("src_expr", .mk (some "fact_expr") (some "a") none [])]) =
      .ok [.impl (.var (sanitize "a")) (.var (sanitize "c"))] := by
  have hfa := C1_statement_encoding.2.2.2.2.2
    (.mk (some "fact_expr") (some "a") none []) "a" rfl rfl
  have hfb := C1_statement_encoding.2.2.2.2.2
    (.mk (some "fact_expr") (some "b") none []) "b" rfl rfl
  have hand := C1_statement_encoding.2.2.1
    (.mk (some "and_expr") none none
      [("left", .mk (some "fact_expr") (some "a") none []),
       ("right", .mk (some "fact_expr") (some "b") none [])])
    (.mk (some "fact_expr") (some "a") none [])
    (.mk (some "fact_expr") (some "b") none [])
    (.var (sanitize "a")) (.var (sanitize "b")) rfl rfl rfl hfa hfb
  refine ⟨?_, ?_⟩
  · exact C1_statement_encoding.2.1 _ _ _ "c"
      (.conj (.var (sanitize "a")) (.var (sanitize "b")))
      rfl rfl rfl rfl rfl hand
  · exact C1_statement_encoding.1 _ _ _ "c" (.var (sanitize "a"))
      rfl rfl rfl rfl rfl hfa

/-! ## Path computation lemmas -/

theorem except_bind_ok {ε α β : Type} (a : α) (f : α → Except ε β) :
    (Except.ok a : Except ε α).bind f = f a := rfl

theorem lineagePathGo_cons (root : CST) (prev : Option (Loc × CST))
    (acc : List Seg) (c : Loc × CST) (rest : List (Loc × CST)) :
    lineagePathGo root prev acc (c :: rest) =
      (stepSeg root prev c).bind fun s =>
        lineagePathGo root (some c)
          (acc ++ (match s with | none => [] | some sg => [sg])) rest := rfl

/-- The previous-element tracker after processing a lineage segment. -/
def prevAfter (prev : Option (Loc × CST)) (l1 : List (Loc × CST)) :
    Option (Loc × CST) :=
  match l1.getLast? with
  | some x => some x
  | none => prev

theorem lineagePathGo_append (root : CST) :
    ∀ (l1 l2 : List (Loc × CST)) (prev : Option (Loc × CST)) (acc : List Seg),
      lineagePathGo root prev acc (l1 ++ l2) =
        (lineagePathGo root prev acc l1).bind fun acc2 =>
          lineagePathGo root (prevAfter prev l1) acc2 l2 := by
  intro l1
  induction l1 with
  | nil => intro l2 prev acc; rfl
  | cons c l1 ih =>
    intro l2 prev acc
    rw [List.cons_append, lineagePathGo_cons, lineagePathGo_cons]
    have hpa : prevAfter prev (c :: l1) = prevAfter (some c) l1 := by
      cases l1 with
      | nil => simp [prevAfter]
      | cons d l1 =>
        simp only [prevAfter, List.getLast?_cons_cons]
        cases h : (d :: l1).getLast? with
        | some x => rfl
        | none =>
          rw [List.getLast?_eq_none_iff] at h
          cases h
    rw [hpa]
    cases hs : stepSeg root prev c with
    | error e => rfl
    | ok s =>
      rw [except_bind_ok, except_bind_ok]
      exact ih l2 (some c) _

theorem prevAfter_concat (prev : Option (Loc × CST))
    (lin : List (Loc × CST)) (x : Loc × CST) :
    prevAfter prev (lin ++ [x]) = some x := by
  simp [prevAfter, List.getLast?_concat]

/-- Appending one lineage element extends the path by that element's
segment, computed against the last element of the existing lineage. -/
theorem lineageToPath_snoc (root : CST) (lin : List (Loc × CST))
    (x : Loc × CST) (segs0 : List Seg)
    (h : lineageToPath root lin = .ok segs0) :
    lineageToPath root (lin ++ [x]) =
      (stepSeg root (prevAfter none lin) x).bind fun s =>
        .ok (segs0 ++ (match s with | none => [] | some sg => [sg])) := by
  unfold lineageToPath at h ⊢
  rw [lineagePathGo_append, h, except_bind_ok, lineagePathGo_cons]
  cases stepSeg root (prevAfter none lin) x <;> rfl

/-! ## C8: operand slot resolution under a boolean connective -/

theorem stepSeg_operand_left (root : CST) (lp : Loc) (p : CST) (l : Loc)
    (n : CST)
    (hp : p.ty = "and_expr" ∨ p.ty = "or_expr")
    (hn : n.ty = "and_expr" ∨ n.ty = "or_expr" ∨ n.ty = "not_expr" ∨
      n.ty = "fact_expr")
    (en0 : Loc × CST) (h0 : (childEntries lp p).get? 0 = some en0)
    (hl : en0.1 = l) :
    stepSeg root (some (lp, p)) (l, n) = .ok (some (.str "left")) := by
  rw [List.get?_eq_getElem?] at h0
  unfold stepSeg
  dsimp only
  rcases hn with h | h | h | h <;> rw [h] <;>
    simp only [String.reduceEq, Bool.false_or, Bool.or_false, Bool.or_self,
      if_false, if_true, reduceIte] <;>
    rw [show (p.ty = "if_then" || p.ty = "only_if") = false from by
        rcases hp with h2 | h2 <;> rw [h2] <;> rfl,
      show (p.ty = "and_expr" || p.ty = "or_expr") = true from by
        rcases hp with h2 | h2 <;> rw [h2] <;> rfl] <;>
    simp [h0, hl]

theorem stepSeg_operand_right (root : CST) (lp : Loc) (p : CST) (l : Loc)
    (n : CST)
    (hp : p.ty = "and_expr" ∨ p.ty = "or_expr")
    (hn : n.ty = "and_expr" ∨ n.ty = "or_expr" ∨ n.ty = "not_expr" ∨
      n.ty = "fact_expr")
    (en0 : Loc × CST) (h0 : (childEntries lp p).get? 0 = some en0)
    (hl0 : en0.1 ≠ l)
    (en2 : Loc × CST) (h2 : (childEntries lp p).get? 2 = some en2)
    (hl2 : en2.1 = l) :
    stepSeg root (some (lp, p)) (l, n) = .ok (some (.str "right")) := by
  rw [List.get?_eq_getElem?] at h0 h2
  unfold stepSeg
  dsimp only
  rcases hn with h | h | h | h <;> rw [h] <;>
    simp only [String.reduceEq, Bool.false_or, Bool.or_false, Bool.or_self,
      if_false, if_true, reduceIte] <;>
    rw [show (p.ty = "if_then" || p.ty = "only_if") = false from by
        rcases hp with h3 | h3 <;> rw [h3] <;> rfl,
      show (p.ty = "and_expr" || p.ty = "or_expr") = true from by
        rcases hp with h3 | h3 <;> rw [h3] <;> rfl] <;>
    simp [h0, h2, hl0, hl2]

theorem stepSeg_operand_mismatch (root : CST) (lp : Loc) (p : CST) (l : Loc)
    (n : CST)
    (hp : p.ty = "and_expr" ∨ p.ty = "or_expr")
    (hn : n.ty = "and_expr" ∨ n.ty = "or_expr" ∨ n.ty = "not_expr" ∨
      n.ty = "fact_expr")
    (en0 : Loc × CST) (h0 : (childEntries lp p).get? 0 = some en0)
    (hl0 : en0.1 ≠ l)
    (en2 : Loc × CST) (h2 : (childEntries lp p).get? 2 = some en2)
    (hl2 : en2.1 ≠ l) :
    stepSeg root (some (lp, p)) (l, n) =
      .error "Expression didn't match either operand of parent bool_expr" := by
  rw [List.get?_eq_getElem?] at h0 h2
  unfold stepSeg
  dsimp only
  rcases hn with h | h | h | h <;> rw [h] <;>
    simp only [String.reduceEq, Bool.false_or, Bool.or_false, Bool.or_self,
      if_false, if_true, reduceIte] <;>
    rw [show (p.ty = "if_then" || p.ty = "only_if") = false from by
        rcases hp with h3 | h3 <;> rw [h3] <;> rfl,
      show (p.ty = "and_expr" || p.ty = "or_expr") = true from by
        rcases hp with h3 | h3 <;> rw [h3] <;> rfl] <;>
    simp [h0, h2, hl0, hl2]

/-- A one-rule program whose statement source is `a AND a`: the two
operands are structurally identical but distinct nodes. -/
def selfAndProg : YProg :=
  ⟨[⟨"R", demoRng 1,
     [⟨false, "d", demoRng 2,
       .yand (.yfact "a" (demoPoint 3) (demoPoint 4))
         (.yfact "a" (demoPoint 3) (demoPoint 4))
         (demoPoint 5) (demoPoint 6),
       demoRng 7⟩],
     demoRng 0⟩],
   demoRng 50⟩

def selfAndRoot : CST := selfAndProg.toCST

/-- C8: when `lineageToPath` processes an expression node whose lineage
parent is an `and_expr` or `or_expr`, it pushes `left` when the node is
(by node identity, i.e. location) the parent's first child, `right` when
it is the third child (the operand after the operator token), and throws
when it is neither — the segment is never silently dropped.  In
particular, in the concrete program `d IF a AND a` the two structurally
identical operands receive the distinct slots `left` and `right`. -/
theorem C8_operand_slot_resolution :
    (∀ (root : CST) (pre : List (Loc × CST)) (lp : Loc) (p : CST) (l : Loc)
       (n : CST) (segs0 : List Seg) (en0 : Loc × CST),
      (p.ty = "and_expr" ∨ p.ty = "or_expr") →
      (n.ty = "and_expr" ∨ n.ty = "or_expr" ∨ n.ty = "not_expr" ∨
        n.ty = "fact_expr") →
      lineageToPath root (pre ++ [(lp, p)]) = .ok segs0 →
      (childEntries lp p).get? 0 = some en0 →
      ((en0.1 = l →
        lineageToPath root ((pre ++ [(lp, p)]) ++ [(l, n)]) =
          .ok (segs0 ++ [.str "left"])) ∧
       (en0.1 ≠ l → ∀ en2, (childEntries lp p).get? 2 = some en2 →
         ((en2.1 = l →
           lineageToPath root ((pre ++ [(lp, p)]) ++ [(l, n)]) =
             .ok (segs0 ++ [.str "right"])) ∧
          (en2.1 ≠ l →
           lineageToPath root ((pre ++ [(lp, p)]) ++ [(l, n)]) =
             .error "Expression didn't match either operand of parent bool_expr"))))) ∧
    selfAndRoot.getNode [0, 1, 0, 0, 0] = selfAndRoot.getNode [0, 1, 0, 0, 2] ∧
    pathOf selfAndRoot [0, 1, 0, 0, 0] =
      .ok [.str "R", .idx 0, .str "src_expr", .str "left"] ∧
    pathOf selfAndRoot [0, 1, 0, 0, 2] =
      .ok [.str "R", .idx 0, .str "src_expr", .str "right"] := by
  refine ⟨?_, rfl, rfl, rfl⟩
  intro root pre lp p l n segs0 en0 hp hn hpath h0
  have hprev : prevAfter none (pre ++ [(lp, p)]) = some (lp, p) :=
    prevAfter_concat none pre (lp, p)
  constructor
  · intro hl
    rw [lineageToPath_snoc root _ _ segs0 hpath, hprev,
      stepSeg_operand_left root lp p l n hp hn en0 h0 hl]
    rfl
  · intro hl0 en2 h2
    constructor
    · intro hl2
      rw [lineageToPath_snoc root _ _ segs0 hpath, hprev,
        stepSeg_operand_right root lp p l n hp hn en0 h0 hl0 en2 h2 hl2]
      rfl
    · intro hl2
      rw [lineageToPath_snoc root _ _ segs0 hpath, hprev,
        stepSeg_operand_mismatch root lp p l n hp hn en0 h0 hl0 en2 h2 hl2]
      rfl

/-- Witness for C8: the left operand of `a AND a` in the concrete
program resolves to the `left` slot through the general statement. -/
theorem C8_witness :
    lineageToPath selfAndRoot
        (([([0], (selfAndProg.rules.get ⟨0, by decide⟩).toCST),
           ([0, 1, 0], ((selfAndProg.rules.get ⟨0, by decide⟩).stmts.get
             ⟨0, by decide⟩).toCST)] ++
          [([0, 1, 0, 0],
            (((selfAndProg.rules.get ⟨0, by decide⟩).stmts.get
              ⟨0, by decide⟩).src).toCST)]) ++
          [([0, 1, 0, 0, 0],
            YExpr.toCST (.yfact "a" (demoPoint 3) (demoPoint 4)))]) =
      .ok ([.str "R", .idx 0, .str "src_expr"] ++ [.str "left"]) :=
  ((C8_operand_slot_resolution.1 selfAndRoot
    [([0], (selfAndProg.rules.get ⟨0, by decide⟩).toCST),
     ([0, 1, 0], ((selfAndProg.rules.get ⟨0, by decide⟩).stmts.get
       ⟨0, by decide⟩).toCST)]
    [0, 1, 0, 0]
    ((((selfAndProg.rules.get ⟨0, by decide⟩).stmts.get
      ⟨0, by decide⟩).src).toCST)
    [0, 1, 0, 0, 0]
    (YExpr.toCST (.yfact "a" (demoPoint 3) (demoPoint 4)))
    [.str "R", .idx 0, .str "src_expr"]
    ([0, 1, 0, 0, 0], YExpr.toCST (.yfact "a" (demoPoint 3) (demoPoint 4)))
    (Or.inl rfl) (Or.inr (Or.inr (Or.inr rfl))) rfl rfl).1) rfl

/-! ## C6: recompiling the same tree yields identical programs -/

/-- C6: compiling the same syntax tree twice (no edits in between) yields
structurally identical programs: the same rule-name list, the same rule
entries (hence the same statement sequences in the same order), and the
same determiner and requirer path lists for every fact descriptor.  In
the source this holds because `compileFromCst` allocates a fresh
`{rules: {}, facts: {}}` default program object on every call and reads
nothing but the tree. -/
theorem C6_recompile_identical (t : CST) (p1 p2 : ProgramOut)
    (h1 : compileFromCst t = .ok p1) (h2 : compileFromCst t = .ok p2) :
    p1.rules.map Prod.fst = p2.rules.map Prod.fst ∧
    p1.rules = p2.rules ∧
    p1.facts.map Prod.fst = p2.facts.map Prod.fst ∧
    (∀ d, (assocGet d p1.facts).map FactOut.determiners =
      (assocGet d p2.facts).map FactOut.determiners) ∧
    (∀ d, (assocGet d p1.facts).map FactOut.requirers =
      (assocGet d p2.facts).map FactOut.requirers) := by
  rw [h1] at h2
  cases h2
  exact ⟨rfl, rfl, rfl, fun d => rfl, fun d => rfl⟩

/-- Witness for C6: the two compilations of the demo program agree on the
requirer paths of `"sunny"`. -/
theorem C6_witness :
    (flattenProgram (progSpec demoProg)).rules =
      (flattenProgram (progSpec demoProg)).rules ∧
    (assocGet "sunny" (flattenProgram (progSpec demoProg)).facts).map
        FactOut.requirers =
      (assocGet "sunny" (flattenProgram (progSpec demoProg)).facts).map
        FactOut.requirers :=
  ⟨(C6_recompile_identical demoRoot (flattenProgram (progSpec demoProg))
      (flattenProgram (progSpec demoProg)) rfl rfl).2.1,
   (C6_recompile_identical demoRoot (flattenProgram (progSpec demoProg))
      (flattenProgram (progSpec demoProg)) rfl rfl).2.2.2.2 "sunny"⟩

/-! ## Extending a lineage by one child -/

theorem chain_snoc (root : CST) (loc : Loc) (i : Nat) (c : CST)
    (hc : root.getNode (loc ++ [i]) = some c) :
    chain root (loc ++ [i]) = chain root loc ++ [(loc ++ [i], c)] := by
  unfold chain
  have hpre : prefixesOf (loc ++ [i]) = prefixesOf loc ++ [loc ++ [i]] := by
    unfold prefixesOf
    rw [List.length_append, List.length_singleton]
    rw [List.range_succ, List.map_append]
    congr 1
    · apply List.map_congr_left
      intro a ha
      simp only [List.mem_range] at ha
      exact List.take_append_of_le_length (by omega)
    · simp
  rw [hpre, List.filterMap_append]
  congr 1
  simp [hc]

theorem beq_append_ne_of_length {loc : Loc} {pre : Loc} (i : Nat)
    (hlen : pre.length ≤ loc.length) : (pre == loc ++ [i]) = false := by
  rw [beq_eq_false_iff_ne]
  intro h
  have := congrArg List.length h
  simp at this
  omega

theorem findLineage_snoc (root : CST) (loc : Loc) (nd : CST) (i : Nat)
    (c : CST) (h : root.getNode loc = some nd)
    (hc : root.getNode (loc ++ [i]) = some c) :
    findLineage root (loc ++ [i]) =
      (findLineage root loc).filter (fun en => interestingType en.2.ty) ++
        [(loc ++ [i], c)] := by
  unfold findLineage
  rw [chain_snoc root loc i c hc, List.filter_append]
  congr 1
  · rw [List.filter_filter]
    apply List.filter_congr
    intro en hen
    have hm := mem_chain root loc nd h en hen
    rw [beq_append_ne_of_length i hm.1]
    cases hbool : interestingType en.2.ty <;> simp [hbool]
  · simp

theorem findLineage_snoc_interesting (root : CST) (loc : Loc) (nd : CST)
    (i : Nat) (c : CST) (h : root.getNode loc = some nd)
    (hint : interestingType nd.ty = true)
    (hc : root.getNode (loc ++ [i]) = some c) :
    findLineage root (loc ++ [i]) =
      findLineage root loc ++ [(loc ++ [i], c)] := by
  rw [findLineage_snoc root loc nd i c h hc]
  congr 1
  apply List.filter_eq_self.mpr
  intro en hen
  unfold findLineage at hen
  rw [List.mem_filter] at hen
  have hm := mem_chain root loc nd h en hen.1
  rcases Bool.or_eq_true _ _ |>.mp hen.2 with hself | hint2
  · have he : en.1 = loc := by
      rw [← beq_iff_eq]
      exact hself
    have h2 : en.2 = nd := by
      have := hm.2.2
      rw [he, h] at this
      exact (Option.some_inj.mp this).symm
    rw [h2]
    exact hint
  · exact hint2

theorem findLineage_nil (root : CST) : findLineage root [] = [([], root)] := rfl

/-! ## Locating grammar-image nodes -/

theorem getNode_cons (t x : String) (f : List (String × Nat))
    (sp ep : Point) (cs : List CST) (i : Nat) (rest : Loc) :
    (CST.node t x f sp ep cs).getNode (i :: rest) =
      (cs.get? i).bind fun c => c.getNode rest := rfl

theorem getNode_rule (p : YProg) (k : Nat) (r : YRule)
    (hk : p.rules.get? k = some r) :
    (YProg.toCST p).getNode [k] = some r.toCST := by
  unfold YProg.toCST
  rw [getNode_cons]
  rw [List.get?_map, hk]
  rfl

theorem getNode_body (p : YProg) (k : Nat) (r : YRule)
    (hk : p.rules.get? k = some r) :
    (YProg.toCST p).getNode [k, 1] =
      some (.node "rule_body" "" [] r.rng.1 r.rng.2
        (r.stmts.map YStmt.toCST)) := by
  unfold YProg.toCST
  rw [getNode_cons]
  rw [List.get?_map, hk]
  rfl

theorem getNode_stmt (p : YProg) (k : Nat) (r : YRule) (j : Nat) (s : YStmt)
    (hk : p.rules.get? k = some r) (hj : r.stmts.get? j = some s) :
    (YProg.toCST p).getNode [k, 1, j] = some s.toCST := by
  unfold YProg.toCST
  rw [getNode_cons]
  rw [List.get?_map, hk]
  show (YRule.toCST r).getNode [1, j] = some s.toCST
  unfold YRule.toCST
  rw [getNode_cons]
  show ((r.stmts.map YStmt.toCST).get? j).bind (fun c => c.getNode []) =
    some s.toCST
  rw [List.get?_map, hj]
  rfl


theorem childEntriesGo_findIdx (L : Loc) :
    ∀ (cs : List CST) (i j acc : Nat), i ≤ j → j < i + cs.length →
      List.findIdx? (fun en => en.1 == L ++ [j]) (childEntriesGo L i cs) acc =
        some (j - i + acc) := by
  intro cs
  induction cs with
  | nil => intro i j acc h1 h2; simp only [List.length_nil] at h2; omega
  | cons c cs ih =>
    intro i j acc h1 h2
    simp only [childEntriesGo, List.findIdx?_cons]
    by_cases hij : i = j
    · subst hij
      simp [Nat.sub_self]
    · have hne : (((L ++ [i], c) : Loc × CST).1 == L ++ [j]) = false := by
        rw [beq_eq_false_iff_ne]
        intro he
        exact hij (by simpa using he)
      simp only [hne, Bool.false_eq_true, if_false]
      rw [ih (i + 1) j (acc + 1) (by omega)
        (by simp only [List.length_cons] at h2; omega)]
      congr 1
      omega

theorem stmt_tyStr_cases (s : YStmt) :
    s.tyStr = "only_if" ∨ s.tyStr = "if_then" := by
  unfold YStmt.tyStr
  cases s.onlyIf <;> simp

/-- The segment of a rule-definition lineage element: the rule's name. -/
theorem stepSeg_rule (root : CST) (prev : Option (Loc × CST)) (l : Loc)
    (r : YRule) :
    stepSeg root prev (l, r.toCST) = .ok (some (.str r.name)) := rfl

/-- The segment of a statement lineage element: the node's index among the
children of its parent (found by identity). -/
theorem stepSeg_stmt (root : CST) (prev : Option (Loc × CST)) (L : Loc)
    (j : Nat) (s : YStmt) (bt bx : String) (bf : List (String × Nat))
    (bs be : Point) (cs : List CST)
    (hp : root.getNode L = some (.node bt bx bf bs be cs))
    (hj : j < cs.length) :
    stepSeg root prev (L ++ [j], s.toCST) = .ok (some (.idx (Int.ofNat j))) := by
  unfold stepSeg YStmt.toCST
  dsimp only [CST.ty]
  rcases stmt_tyStr_cases s with h | h <;> rw [h] <;>
    simp only [String.reduceEq, decide_False, decide_True, Bool.false_or,
      Bool.or_false, Bool.or_true, Bool.true_or, if_false, if_true,
      reduceIte, Bool.false_eq_true] <;>
    rw [show (L ++ [j]).isEmpty = false from by
        cases L <;> simp [List.isEmpty]] <;>
    simp only [Bool.false_eq_true, if_false, List.dropLast_concat] <;>
    rw [hp] <;>
    dsimp only [childEntries, CST.children] <;>
    rw [childEntriesGo_findIdx L cs 0 j 0 (Nat.zero_le j) (by omega)] <;>
    rfl

/-- A descriptor node contributes no segment. -/
theorem stepSeg_desc (root : CST) (prev : Option (Loc × CST)) (l : Loc)
    (tx : String) (ps pe : Point) :
    stepSeg root prev (l, .node "descriptor" tx [] ps pe []) = .ok none := rfl

theorem yexpr_ty_cases (e : YExpr) :
    e.toCST.ty = "and_expr" ∨ e.toCST.ty = "or_expr" ∨
      e.toCST.ty = "not_expr" ∨ e.toCST.ty = "fact_expr" := by
  cases e <;> simp [YExpr.toCST, CST.ty]

/-- An expression directly under a statement gets the `src_expr` slot. -/
theorem stepSeg_under_stmt (root : CST) (lp : Loc) (s : YStmt) (l : Loc)
    (e : YExpr) :
    stepSeg root (some (lp, s.toCST)) (l, e.toCST) =
      .ok (some (.str "src_expr")) := by
  have hty : (s.toCST.ty = "if_then" || s.toCST.ty = "only_if") = true := by
    unfold YStmt.toCST
    dsimp only [CST.ty]
    rcases stmt_tyStr_cases s with h | h <;> rw [h] <;> rfl
  unfold stepSeg
  dsimp only
  rcases yexpr_ty_cases e with h | h | h | h <;> rw [h] <;>
    simp only [String.reduceEq, decide_False, decide_True, Bool.false_or,
      Bool.or_false, Bool.or_true, Bool.true_or, if_false, if_true,
      reduceIte, Bool.false_eq_true] <;>
    rw [hty] <;>
    rfl

/-- An expression directly under a `not_expr` gets the `negand` slot. -/
theorem stepSeg_under_not (root : CST) (lp : Loc) (x : YExpr) (xs xe : Point)
    (l : Loc) (e : YExpr) :
    stepSeg root (some (lp, (YExpr.ynot x xs xe).toCST)) (l, e.toCST) =
      .ok (some (.str "negand")) := by
  unfold stepSeg
  dsimp only
  rcases yexpr_ty_cases e with h | h | h | h <;> rw [h] <;> rfl

/-! ## Lineages and paths of grammar-image nodes -/

theorem getNode_src (p : YProg) (k : Nat) (r : YRule) (j : Nat) (s : YStmt)
    (hk : p.rules.get? k = some r) (hj : r.stmts.get? j = some s) :
    (YProg.toCST p).getNode [k, 1, j, 0] = some s.src.toCST := by
  have h := getNode_stmt p k r j s hk hj
  have h2 : (YProg.toCST p).getNode ([k, 1, j] ++ [0]) =
      (((YProg.toCST p).getNode [k, 1, j]).bind fun m => m.getNode [0]) :=
    getNode_append [k, 1, j] (YProg.toCST p) [0]
  simp only [List.append_eq] at h2
  rw [show ([k, 1, j] ++ [0] : Loc) = [k, 1, j, 0] from rfl] at h2
  rw [h2, h]
  unfold YStmt.toCST
  rfl

theorem getNode_dest (p : YProg) (k : Nat) (r : YRule) (j : Nat) (s : YStmt)
    (hk : p.rules.get? k = some r) (hj : r.stmts.get? j = some s) :
    (YProg.toCST p).getNode [k, 1, j, 1] =
      some (.node "descriptor" s.dest [] s.destRng.1 s.destRng.2 []) := by
  have h := getNode_stmt p k r j s hk hj
  have h2 : (YProg.toCST p).getNode ([k, 1, j] ++ [1]) =
      (((YProg.toCST p).getNode [k, 1, j]).bind fun m => m.getNode [1]) :=
    getNode_append [k, 1, j] (YProg.toCST p) [1]
  rw [show ([k, 1, j] ++ [1] : Loc) = [k, 1, j, 1] from rfl] at h2
  rw [h2, h]
  unfold YStmt.toCST
  rfl

theorem lineage_rule (p : YProg) (k : Nat) (r : YRule)
    (hk : p.rules.get? k = some r) :
    findLineage (YProg.toCST p) [k] = [([k], r.toCST)] := by
  have h := findLineage_snoc (YProg.toCST p) [] (YProg.toCST p) k
    (YRule.toCST r) rfl (getNode_rule p k r hk)
  simp only [List.nil_append] at h
  rw [h, findLineage_nil]
  rfl

theorem interesting_rule (r : YRule) :
    interestingType r.toCST.ty = true := rfl

theorem lineage_body (p : YProg) (k : Nat) (r : YRule)
    (hk : p.rules.get? k = some r) :
    findLineage (YProg.toCST p) [k, 1] =
      [([k], r.toCST),
       ([k, 1], .node "rule_body" "" [] r.rng.1 r.rng.2
         (r.stmts.map YStmt.toCST))] := by
  have h := findLineage_snoc_interesting (YProg.toCST p) [k] (YRule.toCST r) 1
    (.node "rule_body" "" [] r.rng.1 r.rng.2 (r.stmts.map YStmt.toCST))
    (getNode_rule p k r hk) (interesting_rule r) (getNode_body p k r hk)
  rw [show ([k] ++ [1] : Loc) = [k, 1] from rfl] at h
  rw [h, lineage_rule p k r hk]
  rfl

theorem lineage_stmt (p : YProg) (k : Nat) (r : YRule) (j : Nat) (s : YStmt)
    (hk : p.rules.get? k = some r) (hj : r.stmts.get? j = some s) :
    findLineage (YProg.toCST p) [k, 1, j] =
      [([k], r.toCST), ([k, 1, j], s.toCST)] := by
  have h := findLineage_snoc (YProg.toCST p) [k, 1]
    (.node "rule_body" "" [] r.rng.1 r.rng.2 (r.stmts.map YStmt.toCST)) j
    s.toCST (getNode_body p k r hk) (getNode_stmt p k r j s hk hj)
  rw [show ([k, 1] ++ [j] : Loc) = [k, 1, j] from rfl] at h
  rw [h, lineage_body p k r hk]
  rfl

theorem interesting_stmt (s : YStmt) :
    interestingType s.toCST.ty = true := by
  unfold YStmt.toCST
  dsimp only [CST.ty]
  rcases stmt_tyStr_cases s with h | h <;> rw [h] <;> rfl

theorem stmts_length_lt (r : YRule) (j : Nat) (s : YStmt)
    (hj : r.stmts.get? j = some s) : j < r.stmts.length :=
  List.get?_eq_some.mp hj |>.1

theorem path_stmt (p : YProg) (k : Nat) (r : YRule) (j : Nat) (s : YStmt)
    (hk : p.rules.get? k = some r) (hj : r.stmts.get? j = some s) :
    pathOf (YProg.toCST p) [k, 1, j] =
      .ok [.str r.name, .idx (Int.ofNat j)] := by
  unfold pathOf
  rw [lineage_stmt p k r j s hk hj]
  rw [show ([([k], r.toCST), ([k, 1, j], s.toCST)] :
      List (Loc × CST)) = [([k], r.toCST)] ++ [([k, 1, j], s.toCST)] from rfl]
  unfold lineageToPath
  rw [lineagePathGo_append]
  have h1 : lineagePathGo (YProg.toCST p) none [] [([k], r.toCST)] =
      .ok [.str r.name] := rfl
  rw [h1, except_bind_ok]
  have h2 : prevAfter none [([k], r.toCST)] = some ([k], r.toCST) := rfl
  rw [h2, lineagePathGo_cons]
  have h3 := stepSeg_stmt (YProg.toCST p) (some ([k], r.toCST)) [k, 1] j s
    "rule_body" "" [] r.rng.1 r.rng.2 (r.stmts.map YStmt.toCST)
    (getNode_body p k r hk)
    (by rw [List.length_map]; exact stmts_length_lt r j s hj)
  rw [show ([k, 1] ++ [j] : Loc) = [k, 1, j] from rfl] at h3
  rw [h3]
  rfl

theorem path_dest (p : YProg) (k : Nat) (r : YRule) (j : Nat) (s : YStmt)
    (hk : p.rules.get? k = some r) (hj : r.stmts.get? j = some s) :
    pathOf (YProg.toCST p) [k, 1, j, 1] =
      .ok [.str r.name, .idx (Int.ofNat j)] := by
  unfold pathOf
  have h := findLineage_snoc_interesting (YProg.toCST p) [k, 1, j] s.toCST 1
    (.node "descriptor" s.dest [] s.destRng.1 s.destRng.2 [])
    (getNode_stmt p k r j s hk hj) (interesting_stmt s)
    (getNode_dest p k r j s hk hj)
  rw [show ([k, 1, j] ++ [1] : Loc) = [k, 1, j, 1] from rfl] at h
  rw [h, lineage_stmt p k r j s hk hj]
  have hprev := path_stmt p k r j s hk hj
  unfold pathOf at hprev
  rw [lineage_stmt p k r j s hk hj] at hprev
  have := lineageToPath_snoc (YProg.toCST p)
    [([k], r.toCST), ([k, 1, j], s.toCST)]
    ([k, 1, j, 1], .node "descriptor" s.dest [] s.destRng.1 s.destRng.2 [])
    [.str r.name, .idx (Int.ofNat j)] hprev
  unfold lineageToPath at this ⊢
  rw [this]
  rfl

/-! ## Descending into a source expression -/

/-- A step from a boolean-expression node to one of its sub-expressions:
left or right operand of a connective, or the negand of a `not_expr`. -/
inductive Dir where
  | dl
  | dr
  | dn
deriving DecidableEq, Repr

/-- The child index of the sub-expression in the CST (`left` is child 0,
the operator token is child 1 of a connective, `right` is child 2; a
`not_expr` holds its token at 0 and negand at 1). -/
def dirIdx : Dir → Nat
  | .dl => 0
  | .dr => 2
  | .dn => 1

/-- The slot label pushed for the sub-expression. -/
def dirSlot : Dir → String
  | .dl => "left"
  | .dr => "right"
  | .dn => "negand"

def dirSeg (d : Dir) : Seg := .str (dirSlot d)

def dirLocs (π : List Dir) : Loc := π.map dirIdx

def dirSegs (π : List Dir) : List Seg := π.map dirSeg

/-- Navigate a `YExpr` along a direction path. -/
def exprAt : YExpr → List Dir → Option YExpr
  | e, [] => some e
  | .yand l _ _ _, .dl :: π => exprAt l π
  | .yand _ r _ _, .dr :: π => exprAt r π
  | .yor l _ _ _, .dl :: π => exprAt l π
  | .yor _ r _ _, .dr :: π => exprAt r π
  | .ynot x _ _, .dn :: π => exprAt x π
  | _, _ => none

theorem exprAt_nil (e : YExpr) : exprAt e [] = some e := by
  cases e <;> rfl

theorem exprAt_append : ∀ (π1 : List Dir) (e : YExpr) (π2 : List Dir),
    exprAt e (π1 ++ π2) = (exprAt e π1).bind fun e1 => exprAt e1 π2 := by
  intro π1
  induction π1 with
  | nil =>
    intro e π2
    rw [List.nil_append, exprAt_nil, Option.some_bind]
  | cons d π1 ih =>
    intro e π2
    cases d <;> cases e <;>
      simp only [List.cons_append, exprAt, Option.none_bind] <;>
      exact ih _ π2

/-- Extending a lineage by one interesting-typed node's child appends that
child's segment to the path. -/
theorem descend_step (root : CST) (oldloc : Loc) (n c : CST) (i : Nat)
    (sg : Seg) (segs : List Seg)
    (hg : root.getNode oldloc = some n)
    (hpath : pathOf root oldloc = .ok segs)
    (hint : interestingType n.ty = true)
    (hchild : n.getNode [i] = some c)
    (hstep : stepSeg root (some (oldloc, n)) (oldloc ++ [i], c) =
      .ok (some sg)) :
    root.getNode (oldloc ++ [i]) = some c ∧
      pathOf root (oldloc ++ [i]) = .ok (segs ++ [sg]) := by
  have hgc : root.getNode (oldloc ++ [i]) = some c := by
    rw [getNode_append oldloc root [i], hg]
    exact hchild
  refine ⟨hgc, ?_⟩
  unfold pathOf
  rw [findLineage_snoc_interesting root oldloc n i c hg hint hgc]
  have hold : lineageToPath root (findLineage root oldloc) = .ok segs := hpath
  rw [lineageToPath_snoc root _ _ segs hold]
  have hprev : prevAfter none (findLineage root oldloc) = some (oldloc, n) := by
    unfold prevAfter
    rw [findLineage_getLast root oldloc n hg]
  rw [hprev, hstep]
  rfl

/-- The location and path of every node of the source expression of
statement `j` of rule `k`: descending through the expression appends the
matching child indices to the location and the matching slot labels to the
path. -/
theorem expr_descend (p : YProg) (k : Nat) (r : YRule) (j : Nat) (s : YStmt)
    (hk : p.rules.get? k = some r) (hj : r.stmts.get? j = some s) :
    ∀ (π : List Dir) (e2 : YExpr), exprAt s.src π = some e2 →
      (YProg.toCST p).getNode ([k, 1, j, 0] ++ dirLocs π) = some e2.toCST ∧
        pathOf (YProg.toCST p) ([k, 1, j, 0] ++ dirLocs π) =
          .ok ([Seg.str r.name, Seg.idx (Int.ofNat j), Seg.str "src_expr"]
            ++ dirSegs π) := by
  intro π
  induction π using List.reverseRecOn with
  | nil =>
    intro e2 h
    rw [exprAt_nil, Option.some_inj] at h
    subst h
    simp only [dirLocs, dirSegs, List.map_nil, List.append_nil]
    exact descend_step (YProg.toCST p) [k, 1, j] s.toCST s.src.toCST 0
      (.str "src_expr") [Seg.str r.name, Seg.idx (Int.ofNat j)]
      (getNode_stmt p k r j s hk hj) (path_stmt p k r j s hk hj)
      (interesting_stmt s) rfl
      (stepSeg_under_stmt (YProg.toCST p) [k, 1, j] s ([k, 1, j] ++ [0]) s.src)
  | append_singleton π d ih =>
    intro e2 h
    rw [exprAt_append] at h
    cases he1 : exprAt s.src π with
    | none =>
      rw [he1, Option.none_bind] at h
      exact Option.noConfusion h
    | some e1 =>
      rw [he1, Option.some_bind] at h
      obtain ⟨hg, hp⟩ := ih e1 he1
      have hloc : [k, 1, j, 0] ++ dirLocs (π ++ [d]) =
          ([k, 1, j, 0] ++ dirLocs π) ++ [dirIdx d] := by
        unfold dirLocs
        rw [List.map_append, ← List.append_assoc]
        rfl
      have hsg : [Seg.str r.name, Seg.idx (Int.ofNat j), Seg.str "src_expr"]
            ++ dirSegs (π ++ [d]) =
          ([Seg.str r.name, Seg.idx (Int.ofNat j), Seg.str "src_expr"]
            ++ dirSegs π) ++ [dirSeg d] := by
        unfold dirSegs
        rw [List.map_append, ← List.append_assoc]
        rfl
      rw [hloc, hsg]
      cases e1 with
      | yfact dd ss ee => cases d <;> simp [exprAt] at h
      | yand l rr ss ee =>
        cases d with
        | dl =>
          rw [show exprAt (YExpr.yand l rr ss ee) [Dir.dl] = some l from
            exprAt_nil l, Option.some_inj] at h
          subst h
          exact descend_step _ _ _ _ 0 (.str "left") _ hg hp rfl rfl
            (stepSeg_operand_left _ _ _ _ _ (Or.inl rfl) (yexpr_ty_cases l)
              (([k, 1, j, 0] ++ dirLocs π) ++ [0], l.toCST) rfl rfl)
        | dr =>
          rw [show exprAt (YExpr.yand l rr ss ee) [Dir.dr] = some rr from
            exprAt_nil rr, Option.some_inj] at h
          subst h
          exact descend_step _ _ _ _ 2 (.str "right") _ hg hp rfl rfl
            (stepSeg_operand_right _ _ _ _ _ (Or.inl rfl) (yexpr_ty_cases rr)
              (([k, 1, j, 0] ++ dirLocs π) ++ [0], l.toCST) rfl (by simp)
              (([k, 1, j, 0] ++ dirLocs π) ++ [2], rr.toCST) rfl rfl)
        | dn => simp [exprAt] at h
      | yor l rr ss ee =>
        cases d with
        | dl =>
          rw [show exprAt (YExpr.yor l rr ss ee) [Dir.dl] = some l from
            exprAt_nil l, Option.some_inj] at h
          subst h
          exact descend_step _ _ _ _ 0 (.str "left") _ hg hp rfl rfl
            (stepSeg_operand_left _ _ _ _ _ (Or.inr rfl) (yexpr_ty_cases l)
              (([k, 1, j, 0] ++ dirLocs π) ++ [0], l.toCST) rfl rfl)
        | dr =>
          rw [show exprAt (YExpr.yor l rr ss ee) [Dir.dr] = some rr from
            exprAt_nil rr, Option.some_inj] at h
          subst h
          exact descend_step _ _ _ _ 2 (.str "right") _ hg hp rfl rfl
            (stepSeg_operand_right _ _ _ _ _ (Or.inr rfl) (yexpr_ty_cases rr)
              (([k, 1, j, 0] ++ dirLocs π) ++ [0], l.toCST) rfl (by simp)
              (([k, 1, j, 0] ++ dirLocs π) ++ [2], rr.toCST) rfl rfl)
        | dn => simp [exprAt] at h
      | ynot x ss ee =>
        cases d with
        | dl => simp [exprAt] at h
        | dr => simp [exprAt] at h
        | dn =>
          rw [show exprAt (YExpr.ynot x ss ee) [Dir.dn] = some x from
            exprAt_nil x, Option.some_inj] at h
          subst h
          exact descend_step _ _ _ _ 1 (.str "negand") _ hg hp rfl rfl
            (stepSeg_under_not (YProg.toCST p) _ x ss ee _ x)

/-! ## Evaluating the compiler on grammar-image trees -/

theorem foldlM_append_except {ε α β : Type} (f : β → α → Except ε β) :
    ∀ (l1 l2 : List α) (b : β),
      (l1 ++ l2).foldlM f b =
        (l1.foldlM f b).bind fun b2 => l2.foldlM f b2 := by
  intro l1
  induction l1 with
  | nil => intro l2 b; rfl
  | cons a l1 ih =>
    intro l2 b
    simp only [List.cons_append, List.foldlM_cons]
    cases h : f b a with
    | error e => rfl
    | ok b2 => exact ih l2 b2

theorem stmtIndexOf_ofNat (j : Nat) :
    stmtIndexOf (some (.idx (Int.ofNat j))) = some j := by
  show (if (Int.ofNat j : Int) < 0 then none else some (Int.ofNat j).toNat) =
    some j
  have h0 : ¬ Int.ofNat j < 0 := Int.not_lt.mpr (Int.ofNat_nonneg j)
  rw [if_neg h0]
  rfl

theorem map_segKey_dirSegs (π : List Dir) :
    (dirSegs π).map segKey = π.map dirSlot := by
  unfold dirSegs
  rw [List.map_map]
  apply List.map_congr_left
  intro d _
  cases d <;> rfl

/-- The total effect of compiling the subtree of one source expression on
the program object at the expression's own path: the `fact_expr` case sets
the leaf fields, a connective sets its `type` and then builds its operand
subtrees under the slot keys. -/
def exprBuild : YExpr → PNode → PNode
  | .yfact d s e, nd => nd.setFactFields d (s, e)
  | .yand l r _ _, nd =>
    ((nd.setTy "and_expr").ensureSetIn ["left"] (exprBuild l)).ensureSetIn
      ["right"] (exprBuild r)
  | .yor l r _ _, nd =>
    ((nd.setTy "or_expr").ensureSetIn ["left"] (exprBuild l)).ensureSetIn
      ["right"] (exprBuild r)
  | .ynot x _ _, nd => (nd.setTy "not_expr").ensureSetIn ["negand"] (exprBuild x)

theorem exprBuild_empty : ∀ (e : YExpr), exprBuild e PNode.empty = exprSpec e := by
  intro e
  induction e with
  | yfact d s e => rfl
  | yand l r s e ihl ihr =>
    have h : exprBuild (.yand l r s e) PNode.empty =
        PNode.mk (some "and_expr") none none
          [("left", exprBuild l PNode.empty),
           ("right", exprBuild r PNode.empty)] := rfl
    rw [h, ihl, ihr]
    rfl
  | yor l r s e ihl ihr =>
    have h : exprBuild (.yor l r s e) PNode.empty =
        PNode.mk (some "or_expr") none none
          [("left", exprBuild l PNode.empty),
           ("right", exprBuild r PNode.empty)] := rfl
    rw [h, ihl, ihr]
    rfl
  | ynot x s e ih =>
    have h : exprBuild (.ynot x s e) PNode.empty =
        PNode.mk (some "not_expr") none none
          [("negand", exprBuild x PNode.empty)] := rfl
    rw [h, ih]
    rfl

/-- Nodes of uninteresting types leave the program unchanged. -/
theorem compileStep_source (root : CST) (S : ProgramIn) (l : Loc) (p : YProg) :
    compileStep root S (l, YProg.toCST p) = .ok S := rfl

theorem compileStep_identifier (root : CST) (S : ProgramIn) (l : Loc)
    (tx : String) (a b : Point) :
    compileStep root S (l, .node "identifier" tx [] a b []) = .ok S := rfl

theorem compileStep_body (root : CST) (S : ProgramIn) (l : Loc)
    (a b : Point) (cs : List CST) :
    compileStep root S (l, .node "rule_body" "" [] a b cs) = .ok S := rfl

theorem compileStep_AND (root : CST) (S : ProgramIn) (l : Loc) (a b : Point) :
    compileStep root S (l, .node "AND" "AND" [] a b []) = .ok S := rfl

theorem compileStep_OR (root : CST) (S : ProgramIn) (l : Loc) (a b : Point) :
    compileStep root S (l, .node "OR" "OR" [] a b []) = .ok S := rfl

theorem compileStep_NOT (root : CST) (S : ProgramIn) (l : Loc) (a b : Point) :
    compileStep root S (l, .node "NOT" "NOT" [] a b []) = .ok S := rfl

theorem compileStep_descriptor (root : CST) (S : ProgramIn) (l : Loc)
    (tx : String) (a b : Point) :
    compileStep root S (l, .node "descriptor" tx [] a b []) = .ok S := rfl

/-- The rule entry written by a `rule_definition` node: existing
statements are kept, name range and range are (re)bound. -/
def ruleEntryStep (S : ProgramIn) (r : YRule) : RuleC :=
  let r0 := (assocGet r.name S.rules).getD ⟨[], none, none⟩
  { r0 with nameRange := some r.nameRng, range := some r.rng }

theorem compileStep_rule (root : CST) (S : ProgramIn) (l : Loc) (r : YRule) :
    compileStep root S (l, r.toCST) =
      .ok { S with rules := assocSet r.name (ruleEntryStep S r) S.rules } := rfl

theorem bind_ok_eq {ε α β : Type} (a : α) (f : α → Except ε β) :
    (Except.ok a : Except ε α) >>= f = f a := rfl

/-- An `if_then`/`only_if` node appends the statement's initial object to
its ancestor rule's statements and records the determiner event. -/
theorem compileStep_stmt (p : YProg) (k : Nat) (r : YRule) (j : Nat)
    (s : YStmt) (hk : p.rules.get? k = some r) (hj : r.stmts.get? j = some s)
    (S : ProgramIn) (rc : RuleC)
    (hname : r.name ≠ "")
    (hrc : assocGet r.name S.rules = some rc) :
    compileStep (YProg.toCST p) S ([k, 1, j], s.toCST) =
      .ok { S with
        facts := applyEvent S.facts (.det s.dest r.name j s.rng),
        rules := assocSet r.name
          { rc with statements := rc.statements ++
              [PNode.mk (some s.tyStr) none none
                [("dest_fact",
                  PNode.mk none (some s.dest) (some s.destRng) [])]] }
          S.rules } := by
  have hpd : pathOf (YProg.toCST p) ([k, 1, j] ++ [1]) =
      .ok [Seg.str r.name, Seg.idx (Int.ofNat j)] := path_dest p k r j s hk hj
  have hls := lineage_stmt p k r j s hk hj
  obtain ⟨oi, dst, dstR, src, rg⟩ := s
  cases oi <;>
    (unfold compileStep
     dsimp only [YStmt.toCST, YStmt.tyStr, CST.ty, CST.childForFieldName,
       CST.fields, CST.children, CST.text, CST.rng, CST.startPos, CST.endPos]
     simp only [String.reduceEq, String.reduceBEq, decide_False, decide_True,
       Bool.or_false, Bool.or_true, Bool.false_or, Bool.true_or, Bool.or_self,
       if_true, if_false, reduceIte, Bool.false_eq_true, Bool.true_eq_false,
       assocGet, List.get?, Option.some_bind, Option.map_some']
     rw [hpd, bind_ok_eq]
     rw [hls]
     simp only [List.find?, YRule.toCST, String.reduceBEq, String.reduceEq,
       decide_True, decide_False, Option.some_bind, Option.map_some',
       assocGet, List.get?, reduceIte, if_true, if_false]
     rw [if_neg hname, hrc]
     rfl)

/-- `rc` with statement `j` replaced. -/
def setStmt (rc : RuleC) (j : Nat) (st2 : PNode) : RuleC :=
  { rc with statements := rc.statements.set j st2 }

/-- A connective expression node tags the object at its path with its
type. -/
theorem compileStep_conn (p : YProg) (k : Nat) (r : YRule) (j : Nat)
    (s : YStmt) (hk : p.rules.get? k = some r) (hj : r.stmts.get? j = some s)
    (π : List Dir) (e1 : YExpr) (he : exprAt s.src π = some e1)
    (hconn : e1.toCST.ty = "and_expr" ∨ e1.toCST.ty = "or_expr" ∨
      e1.toCST.ty = "not_expr")
    (S : ProgramIn) (rc : RuleC) (st : PNode)
    (hrc : assocGet r.name S.rules = some rc)
    (hst : rc.statements.get? j = some st) :
    compileStep (YProg.toCST p) S ([k, 1, j, 0] ++ dirLocs π, e1.toCST) =
      .ok { S with
        rules := assocSet r.name
          (setStmt rc j (st.ensureSetIn ("src_expr" :: π.map dirSlot)
            (PNode.setTy e1.toCST.ty)))
          S.rules } := by
  have hp := (expr_descend p k r j s hk hj π e1 he).2
  cases e1 <;>
    [skip;
     (unfold compileStep
      dsimp only [YExpr.toCST, CST.ty, CST.text]
      simp only [String.reduceEq, String.reduceBEq, decide_False, decide_True,
        Bool.or_false, Bool.or_true, Bool.false_or, Bool.true_or, Bool.or_self,
        if_true, if_false, reduceIte, Bool.false_eq_true, Bool.true_eq_false]
      rw [hp, bind_ok_eq]
      simp only [List.cons_append, List.nil_append, List.singleton_append,
        List.append_eq, List.get?, List.drop, segKeyO, segKey]
      rw [hrc, stmtIndexOf_ofNat]
      simp only [List.isEmpty_cons, Bool.false_eq_true, if_false]
      rw [hst]
      simp only [List.map, map_segKey_dirSegs, segKey]
      rfl);
     (unfold compileStep
      dsimp only [YExpr.toCST, CST.ty, CST.text]
      simp only [String.reduceEq, String.reduceBEq, decide_False, decide_True,
        Bool.or_false, Bool.or_true, Bool.false_or, Bool.true_or, Bool.or_self,
        if_true, if_false, reduceIte, Bool.false_eq_true, Bool.true_eq_false]
      rw [hp, bind_ok_eq]
      simp only [List.cons_append, List.nil_append, List.singleton_append,
        List.append_eq, List.get?, List.drop, segKeyO, segKey]
      rw [hrc, stmtIndexOf_ofNat]
      simp only [List.isEmpty_cons, Bool.false_eq_true, if_false]
      rw [hst]
      simp only [List.map, map_segKey_dirSegs, segKey]
      rfl);
     (unfold compileStep
      dsimp only [YExpr.toCST, CST.ty, CST.text]
      simp only [String.reduceEq, String.reduceBEq, decide_False, decide_True,
        Bool.or_false, Bool.or_true, Bool.false_or, Bool.true_or, Bool.or_self,
        if_true, if_false, reduceIte, Bool.false_eq_true, Bool.true_eq_false]
      rw [hp, bind_ok_eq]
      simp only [List.cons_append, List.nil_append, List.singleton_append,
        List.append_eq, List.get?, List.drop, segKeyO, segKey]
      rw [hrc, stmtIndexOf_ofNat]
      simp only [List.isEmpty_cons, Bool.false_eq_true, if_false]
      rw [hst]
      simp only [List.map, map_segKey_dirSegs, segKey]
      rfl)]
  · rcases hconn with h | h | h <;> exact absurd h (by simp [YExpr.toCST, CST.ty])

/-- A `fact_expr` leaf records a requirer event for its descriptor and
sets the leaf fields of the object at its path. -/
theorem compileStep_fact (p : YProg) (k : Nat) (r : YRule) (j : Nat)
    (s : YStmt) (hk : p.rules.get? k = some r) (hj : r.stmts.get? j = some s)
    (π : List Dir) (d : String) (ss ee : Point)
    (he : exprAt s.src π = some (.yfact d ss ee))
    (S : ProgramIn) (rc : RuleC) (st : PNode)
    (hrc : assocGet r.name S.rules = some rc)
    (hst : rc.statements.get? j = some st) :
    compileStep (YProg.toCST p) S
        ([k, 1, j, 0] ++ dirLocs π, (YExpr.yfact d ss ee).toCST) =
      .ok { S with
        facts := applyEvent S.facts (.req d r.name j),
        rules := assocSet r.name
          (setStmt rc j (st.ensureSetIn ("src_expr" :: π.map dirSlot)
            (PNode.setFactFields d (ss, ee))))
          S.rules } := by
  have hp := (expr_descend p k r j s hk hj π (.yfact d ss ee) he).2
  unfold compileStep
  dsimp only [YExpr.toCST, CST.ty, CST.text]
  simp only [String.reduceEq, String.reduceBEq, decide_False, decide_True,
    Bool.or_false, Bool.or_true, Bool.false_or, Bool.true_or, Bool.or_self,
    if_true, if_false, reduceIte, Bool.false_eq_true, Bool.true_eq_false]
  rw [hp, bind_ok_eq]
  simp only [List.cons_append, List.nil_append, List.singleton_append,
    List.append_eq, List.get?, List.drop, segKeyO, segKey, segOfOpt]
  rw [hrc, stmtIndexOf_ofNat]
  simp only []
  rw [hst]
  simp only [List.map, map_segKey_dirSegs, segKey]
  rfl

theorem except_pure_bind {ε α β : Type} (a : α) (f : α → Except ε β) :
    (pure a : Except ε α).bind f = f a := rfl

theorem list_get?_set_self {α : Type} : ∀ (xs : List α) (j : Nat) (v : α),
    j < xs.length → (xs.set j v).get? j = some v := by
  intro xs
  induction xs with
  | nil => intro j v h; simp at h
  | cons x xs ih =>
    intro j v h
    cases j with
    | zero => rfl
    | succ j =>
      simp only [List.set_cons_succ, List.get?_cons_succ]
      exact ih j v (by simpa using h)

theorem setStmt_setStmt (rc : RuleC) (j : Nat) (a b : PNode) :
    setStmt (setStmt rc j a) j b = setStmt rc j b := by
  unfold setStmt
  dsimp only
  rw [List.set_set]

theorem setStmt_get? (rc : RuleC) (j : Nat) (a : PNode)
    (h : j < rc.statements.length) :
    (setStmt rc j a).statements.get? j = some a :=
  list_get?_set_self rc.statements j a h

theorem setStmt_length (rc : RuleC) (j : Nat) (a : PNode) :
    (setStmt rc j a).statements.length = rc.statements.length := by
  unfold setStmt
  dsimp only
  rw [List.length_set]

theorem srcPath_snoc (π : List Dir) (d : Dir) :
    "src_expr" :: (π ++ [d]).map dirSlot =
      ("src_expr" :: π.map dirSlot) ++ [dirSlot d] := by
  rw [List.map_append]
  rfl

theorem dirLocs_snoc (b : Loc) (π : List Dir) (d : Dir) :
    (b ++ dirLocs π) ++ [dirIdx d] = b ++ dirLocs (π ++ [d]) := by
  simp [dirLocs, List.append_assoc]

theorem preorder_yfact (L : Loc) (d : String) (ss ee : Point) :
    preorder L (YExpr.yfact d ss ee).toCST =
      [(L, (YExpr.yfact d ss ee).toCST)] := rfl

theorem preorder_yand (L : Loc) (l rr : YExpr) (ss ee : Point) :
    preorder L (YExpr.yand l rr ss ee).toCST =
      (L, (YExpr.yand l rr ss ee).toCST) ::
        (preorder (L ++ [0]) l.toCST ++
          ([(L ++ [1], CST.node "AND" "AND" [] ss ee [])] ++
            (preorder (L ++ [2]) rr.toCST ++ []))) := rfl

theorem preorder_yor (L : Loc) (l rr : YExpr) (ss ee : Point) :
    preorder L (YExpr.yor l rr ss ee).toCST =
      (L, (YExpr.yor l rr ss ee).toCST) ::
        (preorder (L ++ [0]) l.toCST ++
          ([(L ++ [1], CST.node "OR" "OR" [] ss ee [])] ++
            (preorder (L ++ [2]) rr.toCST ++ []))) := rfl

theorem preorder_ynot (L : Loc) (x : YExpr) (ss ee : Point) :
    preorder L (YExpr.ynot x ss ee).toCST =
      (L, (YExpr.ynot x ss ee).toCST) ::
        ([(L ++ [0], CST.node "NOT" "NOT" [] ss ee [])] ++
          (preorder (L ++ [1]) x.toCST ++ [])) := rfl

/-- Folding the compiler over the pre-order of an expression subtree
(located at path `π` inside the source expression of statement `j` of rule
`k`) records one requirer event per `fact_expr` leaf in order, and builds
the expression object at the statement's `src_expr` path. -/
theorem exprFold (p : YProg) (k : Nat) (r : YRule) (j : Nat) (s : YStmt)
    (hk : p.rules.get? k = some r) (hj : r.stmts.get? j = some s) :
    ∀ (e : YExpr) (π : List Dir), exprAt s.src π = some e →
      ∀ (R : List (String × RuleC)) (F : List (String × FactIn))
        (rc : RuleC) (st : PNode),
        assocGet r.name R = some rc →
        rc.statements.get? j = some st →
        (preorder ([k, 1, j, 0] ++ dirLocs π) e.toCST).foldlM
            (compileStep (YProg.toCST p)) ⟨R, F⟩ =
          .ok ⟨assocSet r.name
              (setStmt rc j (st.ensureSetIn ("src_expr" :: π.map dirSlot)
                (exprBuild e))) R,
            ((exprFacts e).map fun d => FactEvent.req d r.name j).foldl
              applyEvent F⟩ := by
  intro e
  induction e with
  | yfact d ss ee =>
    intro π he R F rc st hrc hst
    rw [preorder_yfact]
    simp only [List.foldlM_cons, List.foldlM_nil]
    rw [compileStep_fact p k r j s hk hj π d ss ee he ⟨R, F⟩ rc st hrc hst]
    rfl
  | yand l rr ss ee ihl ihr =>
    intro π he R F rc st hrc hst
    have hjlen : j < rc.statements.length := (List.get?_eq_some.mp hst).1
    have hel : exprAt s.src (π ++ [Dir.dl]) = some l := by
      rw [exprAt_append, he, Option.some_bind]
      exact exprAt_nil l
    have her : exprAt s.src (π ++ [Dir.dr]) = some rr := by
      rw [exprAt_append, he, Option.some_bind]
      exact exprAt_nil rr
    rw [preorder_yand]
    simp only [List.append_nil]
    rw [List.foldlM_cons]
    rw [compileStep_conn p k r j s hk hj π (.yand l rr ss ee) he (Or.inl rfl)
      ⟨R, F⟩ rc st hrc hst]
    rw [bind_ok_eq]
    dsimp only [YExpr.toCST, CST.ty]
    rw [foldlM_append_except]
    rw [show (([k, 1, j, 0] ++ dirLocs π) ++ [0] : Loc) =
      [k, 1, j, 0] ++ dirLocs (π ++ [Dir.dl]) from dirLocs_snoc [k, 1, j, 0] π Dir.dl]
    rw [ihl (π ++ [Dir.dl]) hel _ _ _ _
      (assocGet_assocSet_same r.name _ R)
      (setStmt_get? rc j _ hjlen)]
    rw [except_bind_ok]
    rw [foldlM_append_except]
    simp only [List.foldlM_cons, List.foldlM_nil, compileStep_AND, bind_ok_eq,
      except_pure_bind]
    rw [assocSet_assocSet_same, setStmt_setStmt, srcPath_snoc π Dir.dl,
      ensureSetIn_append, ensureSetIn_ensureSetIn_same]
    rw [show (([k, 1, j, 0] ++ dirLocs π) ++ [2] : Loc) =
      [k, 1, j, 0] ++ dirLocs (π ++ [Dir.dr]) from dirLocs_snoc [k, 1, j, 0] π Dir.dr]
    rw [ihr (π ++ [Dir.dr]) her _ _ _ _
      (assocGet_assocSet_same r.name _ R)
      (setStmt_get? rc j _ hjlen)]
    rw [assocSet_assocSet_same, setStmt_setStmt, srcPath_snoc π Dir.dr,
      ensureSetIn_append, ensureSetIn_ensureSetIn_same]
    rw [show exprFacts (.yand l rr ss ee) = exprFacts l ++ exprFacts rr from rfl,
      List.map_append, List.foldl_append]
    rfl
  | yor l rr ss ee ihl ihr =>
    intro π he R F rc st hrc hst
    have hjlen : j < rc.statements.length := (List.get?_eq_some.mp hst).1
    have hel : exprAt s.src (π ++ [Dir.dl]) = some l := by
      rw [exprAt_append, he, Option.some_bind]
      exact exprAt_nil l
    have her : exprAt s.src (π ++ [Dir.dr]) = some rr := by
      rw [exprAt_append, he, Option.some_bind]
      exact exprAt_nil rr
    rw [preorder_yor]
    simp only [List.append_nil]
    rw [List.foldlM_cons]
    rw [compileStep_conn p k r j s hk hj π (.yor l rr ss ee) he
      (Or.inr (Or.inl rfl)) ⟨R, F⟩ rc st hrc hst]
    rw [bind_ok_eq]
    dsimp only [YExpr.toCST, CST.ty]
    rw [foldlM_append_except]
    rw [show (([k, 1, j, 0] ++ dirLocs π) ++ [0] : Loc) =
      [k, 1, j, 0] ++ dirLocs (π ++ [Dir.dl]) from dirLocs_snoc [k, 1, j, 0] π Dir.dl]
    rw [ihl (π ++ [Dir.dl]) hel _ _ _ _
      (assocGet_assocSet_same r.name _ R)
      (setStmt_get? rc j _ hjlen)]
    rw [except_bind_ok]
    rw [foldlM_append_except]
    simp only [List.foldlM_cons, List.foldlM_nil, compileStep_OR, bind_ok_eq,
      except_pure_bind]
    rw [assocSet_assocSet_same, setStmt_setStmt, srcPath_snoc π Dir.dl,
      ensureSetIn_append, ensureSetIn_ensureSetIn_same]
    rw [show (([k, 1, j, 0] ++ dirLocs π) ++ [2] : Loc) =
      [k, 1, j, 0] ++ dirLocs (π ++ [Dir.dr]) from dirLocs_snoc [k, 1, j, 0] π Dir.dr]
    rw [ihr (π ++ [Dir.dr]) her _ _ _ _
      (assocGet_assocSet_same r.name _ R)
      (setStmt_get? rc j _ hjlen)]
    rw [assocSet_assocSet_same, setStmt_setStmt, srcPath_snoc π Dir.dr,
      ensureSetIn_append, ensureSetIn_ensureSetIn_same]
    rw [show exprFacts (.yor l rr ss ee) = exprFacts l ++ exprFacts rr from rfl,
      List.map_append, List.foldl_append]
    rfl
  | ynot x ss ee ihx =>
    intro π he R F rc st hrc hst
    have hjlen : j < rc.statements.length := (List.get?_eq_some.mp hst).1
    have hex : exprAt s.src (π ++ [Dir.dn]) = some x := by
      rw [exprAt_append, he, Option.some_bind]
      exact exprAt_nil x
    rw [preorder_ynot]
    simp only [List.append_nil]
    rw [List.foldlM_cons]
    rw [compileStep_conn p k r j s hk hj π (.ynot x ss ee) he
      (Or.inr (Or.inr rfl)) ⟨R, F⟩ rc st hrc hst]
    rw [bind_ok_eq]
    dsimp only [YExpr.toCST, CST.ty]
    rw [foldlM_append_except]
    simp only [List.foldlM_cons, List.foldlM_nil, compileStep_NOT, bind_ok_eq,
      except_pure_bind]
    rw [show (([k, 1, j, 0] ++ dirLocs π) ++ [1] : Loc) =
      [k, 1, j, 0] ++ dirLocs (π ++ [Dir.dn]) from dirLocs_snoc [k, 1, j, 0] π Dir.dn]
    rw [ihx (π ++ [Dir.dn]) hex _ _ _ _
      (assocGet_assocSet_same r.name _ R)
      (setStmt_get? rc j _ hjlen)]
    rw [assocSet_assocSet_same, setStmt_setStmt, srcPath_snoc π Dir.dn,
      ensureSetIn_append, ensureSetIn_ensureSetIn_same]
    rfl

theorem list_set_concat {α : Type} : ∀ (xs : List α) (a b : α),
    (xs ++ [a]).set xs.length b = xs ++ [b] := by
  intro xs
  induction xs with
  | nil => intro a b; rfl
  | cons x xs ih =>
    intro a b
    simp only [List.cons_append, List.length_cons, List.set_cons_succ]
    rw [ih]

theorem preorder_stmt (L : Loc) (s : YStmt) :
    preorder L s.toCST =
      (L, s.toCST) ::
        (preorder (L ++ [0]) s.src.toCST ++
          ([(L ++ [1],
             CST.node "descriptor" s.dest [] s.destRng.1 s.destRng.2 [])] ++
            [])) := rfl

/-- Folding the compiler over the pre-order of one statement appends the
fully built statement object and records the statement's events. -/
theorem stmtFold (p : YProg) (k : Nat) (r : YRule) (j : Nat) (s : YStmt)
    (hk : p.rules.get? k = some r) (hj : r.stmts.get? j = some s)
    (hname : r.name ≠ "")
    (R : List (String × RuleC)) (F : List (String × FactIn)) (rc : RuleC)
    (hrc : assocGet r.name R = some rc)
    (hlen : rc.statements.length = j) :
    (preorder [k, 1, j] s.toCST).foldlM (compileStep (YProg.toCST p)) ⟨R, F⟩ =
      .ok ⟨assocSet r.name
          { rc with statements := rc.statements ++ [stmtSpec s] } R,
        (stmtEvents r.name j s).foldl applyEvent F⟩ := by
  subst hlen
  have hX : (PNode.mk (some s.tyStr) none none
      [("dest_fact", PNode.mk none (some s.dest) (some s.destRng) [])]).ensureSetIn
      ("src_expr" :: List.map dirSlot []) (exprBuild s.src) = stmtSpec s := by
    show PNode.mk (some s.tyStr) none none
      [("dest_fact", PNode.mk none (some s.dest) (some s.destRng) []),
       ("src_expr", exprBuild s.src PNode.empty)] = stmtSpec s
    rw [exprBuild_empty]
    rfl
  rw [preorder_stmt]
  simp only [List.append_nil]
  rw [List.foldlM_cons]
  rw [compileStep_stmt p k r rc.statements.length s hk hj ⟨R, F⟩ rc hname hrc]
  rw [bind_ok_eq]
  rw [foldlM_append_except]
  rw [show ([k, 1, rc.statements.length] ++ [0] : Loc) =
    [k, 1, rc.statements.length, 0] ++ dirLocs [] from rfl]
  rw [exprFold p k r rc.statements.length s hk hj s.src [] (exprAt_nil s.src)
    _ _ _ _ (assocGet_assocSet_same r.name _ R) (List.get?_concat_length _ _)]
  rw [except_bind_ok]
  simp only [List.foldlM_cons, List.foldlM_nil, compileStep_descriptor,
    bind_ok_eq, except_pure_bind]
  rw [assocSet_assocSet_same]
  rw [hX]
  rw [show setStmt { rc with statements := rc.statements ++
      [PNode.mk (some s.tyStr) none none
        [("dest_fact", PNode.mk none (some s.dest) (some s.destRng) [])]] }
      rc.statements.length (stmtSpec s) =
      { rc with statements := rc.statements ++ [stmtSpec s] } from by
    unfold setStmt
    dsimp only
    rw [list_set_concat]]
  rw [show stmtEvents r.name rc.statements.length s =
    FactEvent.det s.dest r.name rc.statements.length s.rng ::
      ((exprFacts s.src).map fun d =>
        FactEvent.req d r.name rc.statements.length) from rfl]
  rw [List.foldl_cons]
  rfl

theorem assocSet_get_same {α : Type} (k : String) (v : α) :
    ∀ l, assocGet k l = some v → assocSet k v l = l := by
  intro l
  induction l with
  | nil => intro h; simp [assocGet] at h
  | cons hd tl ih =>
    intro h
    obtain ⟨k2, w⟩ := hd
    simp only [assocGet] at h
    by_cases hk : k2 = k
    · rw [if_pos hk] at h
      injection h with h
      subst h
      simp [assocSet, hk]
    · rw [if_neg hk] at h
      simp only [assocSet, if_neg hk]
      rw [ih h]

/-- Folding the compiler over the statements of a rule body starting at
child index `j0` appends the statement objects in order and records the
events of each statement. -/
theorem stmtsFold (p : YProg) (k : Nat) (r : YRule)
    (hk : p.rules.get? k = some r) (hname : r.name ≠ "") :
    ∀ (ss : List YStmt) (j0 : Nat), r.stmts.drop j0 = ss →
      ∀ (R : List (String × RuleC)) (F : List (String × FactIn)) (rc : RuleC),
        assocGet r.name R = some rc →
        rc.statements.length = j0 →
        (preorderList [k, 1] j0 (ss.map YStmt.toCST)).foldlM
            (compileStep (YProg.toCST p)) ⟨R, F⟩ =
          .ok ⟨assocSet r.name
              { rc with statements := rc.statements ++ ss.map stmtSpec } R,
            (stmtsEventsFrom r.name j0 ss).foldl applyEvent F⟩ := by
  intro ss
  induction ss with
  | nil =>
    intro j0 hsuff R F rc hrc hlen
    rw [show (List.map YStmt.toCST [] : List CST) = [] from rfl]
    rw [show preorderList [k, 1] j0 [] = [] from rfl]
    rw [List.foldlM_nil]
    rw [show stmtsEventsFrom r.name j0 [] = [] from rfl, List.foldl_nil]
    rw [show ({ rc with statements := rc.statements ++ List.map stmtSpec [] } :
      RuleC) = rc from by simp]
    rw [assocSet_get_same r.name rc R hrc]
    rfl
  | cons s2 ss ih =>
    intro j0 hsuff R F rc hrc hlen
    have hj0 : r.stmts.get? j0 = some s2 := by
      have h1 : (r.stmts.drop j0).get? 0 = some s2 := by rw [hsuff]; rfl
      rw [List.get?_drop] at h1
      simpa using h1
    have hsuff2 : r.stmts.drop (j0 + 1) = ss := by
      have h2 : (r.stmts.drop j0).drop 1 = ss := by rw [hsuff]; rfl
      rw [List.drop_drop] at h2
      exact h2
    rw [show List.map YStmt.toCST (s2 :: ss) =
      s2.toCST :: List.map YStmt.toCST ss from rfl]
    rw [show preorderList [k, 1] j0 (s2.toCST :: List.map YStmt.toCST ss) =
      preorder ([k, 1] ++ [j0]) s2.toCST ++
        preorderList [k, 1] (j0 + 1) (List.map YStmt.toCST ss) from rfl]
    rw [foldlM_append_except]
    rw [show ([k, 1] ++ [j0] : Loc) = [k, 1, j0] from rfl]
    rw [stmtFold p k r j0 s2 hk hj0 hname R F rc hrc hlen]
    rw [except_bind_ok]
    rw [ih (j0 + 1) hsuff2 _ _ _ (assocGet_assocSet_same r.name _ R)
      (by simp [List.length_append, hlen])]
    rw [assocSet_assocSet_same]
    dsimp only
    rw [show (rc.statements ++ [stmtSpec s2]) ++ List.map stmtSpec ss =
      rc.statements ++ List.map stmtSpec (s2 :: ss) from by
        rw [List.append_assoc]; rfl]
    rw [show stmtsEventsFrom r.name j0 (s2 :: ss) =
      stmtEvents r.name j0 s2 ++ stmtsEventsFrom r.name (j0 + 1) ss from rfl,
      List.foldl_append]

theorem not_mem_of_assocGet_none {α : Type} (k : String)
    (l : List (String × α)) (h : assocGet k l = none) :
    ¬ k ∈ l.map Prod.fst := by
  intro hmem
  rw [List.mem_map] at hmem
  obtain ⟨⟨k2, v⟩, hin, he⟩ := hmem
  dsimp only at he
  subst he
  have h2 := assocGet_isSome_of_mem k2 v l hin
  rw [h] at h2
  simp at h2

theorem assocSet_append_key {α : Type} (k : String) (v w : α) :
    ∀ (l1 : List (String × α)), assocGet k l1 = none →
      assocSet k v (l1 ++ [(k, w)]) = l1 ++ [(k, v)] := by
  intro l1
  induction l1 with
  | nil => intro _; simp [assocSet]
  | cons hd tl ih =>
    obtain ⟨k2, w2⟩ := hd
    intro h
    simp only [assocGet] at h
    by_cases hk : k2 = k
    · rw [if_pos hk] at h
      cases h
    · rw [if_neg hk] at h
      simp only [List.cons_append, assocSet, if_neg hk, List.append_eq]
      rw [ih h]

theorem preorder_rule (L : Loc) (r : YRule) :
    preorder L r.toCST =
      (L, r.toCST) ::
        ([(L ++ [0],
           CST.node "identifier" r.name [] r.nameRng.1 r.nameRng.2 [])] ++
          (((L ++ [1], CST.node "rule_body" "" [] r.rng.1 r.rng.2
              (r.stmts.map YStmt.toCST)) ::
            preorderList (L ++ [1]) 0 (r.stmts.map YStmt.toCST)) ++ [])) := rfl

/-- Folding the compiler over the pre-order of one rule definition appends
the rule's compiled entry (when its name is fresh) and records all its
statements' events. -/
theorem ruleFold (p : YProg) (k : Nat) (r : YRule)
    (hk : p.rules.get? k = some r) (hname : r.name ≠ "")
    (R : List (String × RuleC)) (F : List (String × FactIn))
    (hfresh : assocGet r.name R = none) :
    (preorder [k] r.toCST).foldlM (compileStep (YProg.toCST p)) ⟨R, F⟩ =
      .ok ⟨R ++ [(r.name, ruleSpec r)], (ruleEvents r).foldl applyEvent F⟩ := by
  have hget : assocGet r.name
      (R ++ [(r.name, (⟨[], some r.nameRng, some r.rng⟩ : RuleC))]) =
      some ⟨[], some r.nameRng, some r.rng⟩ := by
    rw [assocGet_append_of_none r.name R _ hfresh]
    simp [assocGet]
  rw [preorder_rule]
  simp only [List.append_nil]
  rw [List.foldlM_cons]
  rw [compileStep_rule (YProg.toCST p) ⟨R, F⟩ [k] r]
  rw [bind_ok_eq]
  rw [show ruleEntryStep ⟨R, F⟩ r = ⟨[], some r.nameRng, some r.rng⟩ from by
    unfold ruleEntryStep
    dsimp only
    rw [hfresh]
    rfl]
  rw [show assocSet r.name (⟨[], some r.nameRng, some r.rng⟩ : RuleC) R =
    R ++ [(r.name, ⟨[], some r.nameRng, some r.rng⟩)] from
    assocSet_eq_append_of_not_mem r.name _ R
      (not_mem_of_assocGet_none r.name R hfresh)]
  rw [foldlM_append_except]
  simp only [List.foldlM_cons, List.foldlM_nil, compileStep_identifier,
    bind_ok_eq, except_pure_bind]
  rw [compileStep_body]
  rw [bind_ok_eq]
  rw [show ([k] ++ [1] : Loc) = [k, 1] from rfl]
  rw [stmtsFold p k r hk hname r.stmts 0 rfl _ _ _ hget rfl]
  rw [show ({ (⟨[], some r.nameRng, some r.rng⟩ : RuleC) with
      statements := (⟨[], some r.nameRng, some r.rng⟩ : RuleC).statements ++
        r.stmts.map stmtSpec } : RuleC) = ruleSpec r from by
    dsimp only
    rw [List.nil_append]
    rfl]
  rw [assocSet_append_key r.name _ _ R hfresh]
  rfl

/-- Folding the compiler over a suffix of the rule definitions (with
pairwise-fresh non-empty names) appends their compiled entries in order
and records all events. -/
theorem rulesFold (p : YProg) :
    ∀ (rs : List YRule) (k0 : Nat), p.rules.drop k0 = rs →
      (∀ r2 ∈ rs, r2.name ≠ "") →
      ((rs.map YRule.name).Nodup) →
      ∀ (R : List (String × RuleC)) (F : List (String × FactIn)),
        (∀ r2 ∈ rs, assocGet r2.name R = none) →
        (preorderList [] k0 (rs.map YRule.toCST)).foldlM
            (compileStep (YProg.toCST p)) ⟨R, F⟩ =
          .ok ⟨R ++ rulesSpec rs,
            ((rs.map ruleEvents).flatten).foldl applyEvent F⟩ := by
  intro rs
  induction rs with
  | nil =>
    intro k0 hsuff hcne hnodup R F hfresh
    rw [show (List.map YRule.toCST [] : List CST) = [] from rfl,
      show preorderList [] k0 [] = [] from rfl, List.foldlM_nil]
    rw [show rulesSpec [] = [] from rfl, List.append_nil]
    rfl
  | cons r2 rs ih =>
    intro k0 hsuff hcne hnodup R F hfresh
    have hk0 : p.rules.get? k0 = some r2 := by
      have h1 : (p.rules.drop k0).get? 0 = some r2 := by rw [hsuff]; rfl
      rw [List.get?_drop] at h1
      simpa using h1
    have hsuff2 : p.rules.drop (k0 + 1) = rs := by
      have h2 : (p.rules.drop k0).drop 1 = rs := by rw [hsuff]; rfl
      rw [List.drop_drop] at h2
      exact h2
    have hnodup2 : (r2.name :: rs.map YRule.name).Nodup := by
      rw [List.map_cons] at hnodup
      exact hnodup
    rw [show List.map YRule.toCST (r2 :: rs) =
      r2.toCST :: List.map YRule.toCST rs from rfl]
    rw [show preorderList [] k0 (r2.toCST :: List.map YRule.toCST rs) =
      preorder (([] : Loc) ++ [k0]) r2.toCST ++
        preorderList [] (k0 + 1) (List.map YRule.toCST rs) from rfl]
    rw [foldlM_append_except]
    rw [show (([] : Loc) ++ [k0]) = [k0] from rfl]
    rw [ruleFold p k0 r2 hk0 (hcne r2 (by simp)) R F (hfresh r2 (by simp))]
    rw [except_bind_ok]
    rw [ih (k0 + 1) hsuff2
      (fun r3 h3 => hcne r3 (List.mem_cons_of_mem _ h3))
      hnodup2.of_cons _ _
      (fun r3 h3 => by
        rw [assocGet_append_of_none r3.name R _
          (hfresh r3 (List.mem_cons_of_mem _ h3))]
        have hmem : r3.name ∈ rs.map YRule.name :=
          List.mem_map_of_mem YRule.name h3
        have hne : ¬ r2.name = r3.name := by
          intro he
          rw [← he] at hmem
          exact (List.nodup_cons.mp hnodup2).1 hmem
        simp [assocGet, hne])]
    rw [List.append_assoc]
    rw [show ((r2 :: rs).map ruleEvents).flatten =
      ruleEvents r2 ++ (rs.map ruleEvents).flatten from by
        rw [List.map_cons, List.flatten_cons]]
    rw [List.foldl_append]
    rfl

theorem preorder_prog (p : YProg) :
    preorder [] (YProg.toCST p) =
      ([], YProg.toCST p) ::
        preorderList [] 0 (p.rules.map YRule.toCST) := rfl

/-- The master characterisation: on a grammar-image tree with pairwise
distinct, non-empty rule names, `compileFromCst` succeeds and returns the
flattening of the reference compilation `progSpec`. -/
theorem compile_master (p : YProg) (hgood : goodNames p) :
    compileFromCst (YProg.toCST p) = .ok (flattenProgram (progSpec p)) := by
  obtain ⟨hnodup, hne⟩ := hgood
  unfold compileFromCst
  rw [preorder_prog]
  rw [List.foldlM_cons]
  rw [compileStep_source]
  rw [bind_ok_eq]
  rw [rulesFold p p.rules 0 rfl hne hnodup [] [] (fun r2 _ => rfl)]
  rw [bind_ok_eq]
  rfl

/-! ## Navigating a compiled program by a recorded path -/

/-- Modelled from the spec: navigating a compiled Program by a recorded
path — the rule-name segment indexes `program.rules`, the statement
segment indexes that rule's `statements` array (JS index coercion,
`stmtIndexOf`), and the remaining slot segments walk the statement object
by their property keys. -/
def navPath (P : ProgramOut) (segs : List Seg) : Option PNode :=
  match segs with
  | .str rn :: stmtSeg :: slots =>
    (assocGet rn P.rules).bind fun rc =>
      (stmtIndexOf (some stmtSeg)).bind fun j2 =>
        (rc.statements.get? j2).bind fun st =>
          st.getIn (slots.map segKey)
  | _ => none

theorem assocGet_rulesSpec :
    ∀ (rs : List YRule), ((rs.map YRule.name).Nodup) →
      ∀ r ∈ rs, assocGet r.name (rulesSpec rs) = some (ruleSpec r) := by
  intro rs
  induction rs with
  | nil => intro _ r hr; cases hr
  | cons r2 rs ih =>
    intro hnodup r hr
    rw [List.map_cons] at hnodup
    rw [show rulesSpec (r2 :: rs) = (r2.name, ruleSpec r2) :: rulesSpec rs
      from rfl]
    rcases List.mem_cons.mp hr with h | h
    · subst h
      simp [assocGet]
    · by_cases he : r2.name = r.name
      · exfalso
        have hmem : r.name ∈ rs.map YRule.name :=
          List.mem_map_of_mem YRule.name h
        rw [← he] at hmem
        exact (List.nodup_cons.mp hnodup).1 hmem
      · simp only [assocGet, if_neg he]
        exact ih (List.nodup_cons.mp hnodup).2 r h

theorem getIn_exprSpec : ∀ (π : List Dir) (e e2 : YExpr),
    exprAt e π = some e2 →
      (exprSpec e).getIn (π.map dirSlot) = some (exprSpec e2) := by
  intro π
  induction π with
  | nil =>
    intro e e2 h
    rw [exprAt_nil, Option.some_inj] at h
    subst h
    rfl
  | cons dd π ih =>
    intro e e2 h
    cases dd <;> cases e <;>
      first
        | exact Option.noConfusion h
        | exact ih _ _ h

/-- A program with two rules that share the name `"a"` (the grammar does
not forbid this): the compiler merges their statement lists under the one
key `"a"`. -/
def dupProg : YProg :=
  ⟨[⟨"a", demoRng 1,
     [⟨false, "d1", demoRng 2,
       .yfact "b" (demoPoint 3) (demoPoint 4), demoRng 5⟩],
     demoRng 6⟩,
    ⟨"a", demoRng 7,
     [⟨false, "d2", demoRng 8,
       .yfact "c" (demoPoint 9) (demoPoint 10), demoRng 11⟩],
     demoRng 12⟩],
   demoRng 0⟩

def dupRoot : CST := dupProg.toCST

/-- C4 (amended with the distinct-rule-names precondition): for a
statement node, the index segment that `lineageToPath` pushes equals the
position at which the compiler appended that statement's object to its
rule's `statements` list — the fully built `stmtSpec` object sits at
exactly that index. -/
theorem C4_statement_index_is_append_position (p : YProg)
    (hgood : goodNames p) (k : Nat) (r : YRule) (j : Nat) (s : YStmt)
    (hk : p.rules.get? k = some r) (hj : r.stmts.get? j = some s) :
    pathOf (YProg.toCST p) [k, 1, j] =
      .ok [Seg.str r.name, Seg.idx (Int.ofNat j)] ∧
    ∃ P rc, compileFromCst (YProg.toCST p) = .ok P ∧
      assocGet r.name P.rules = some rc ∧
      rc.statements.get? j = some (stmtSpec s) := by
  refine ⟨path_stmt p k r j s hk hj, flattenProgram (progSpec p), ruleSpec r,
    compile_master p hgood, ?_, ?_⟩
  · show assocGet r.name (rulesSpec p.rules) = some (ruleSpec r)
    exact assocGet_rulesSpec p.rules hgood.1 r (List.get?_mem hk)
  · show (r.stmts.map stmtSpec).get? j = some (stmtSpec s)
    rw [List.get?_map, hj]
    rfl

/-- C4 counterexample: with two rules both named `"a"`, the statement of
the *second* rule (CST location `[1, 1, 0]`) gets path segment `0` (its
index among its own rule body's children), but the compiler appends its
statement object (the one with `dest_fact` descriptor `"d2"`) at position
`1` of the merged statements list — position `0` holds the first rule's
statement (`"d1"`). -/
theorem C4_counterexample :
    pathOf dupRoot [1, 1, 0] = .ok [Seg.str "a", Seg.idx 0] ∧
    ∃ P rc, compileFromCst dupRoot = .ok P ∧
      assocGet "a" P.rules = some rc ∧
      ((rc.statements.get? 1).bind fun st =>
        (st.getIn ["dest_fact"]).bind PNode.descriptor) = some "d2" ∧
      ((rc.statements.get? 0).bind fun st =>
        (st.getIn ["dest_fact"]).bind PNode.descriptor) = some "d1" :=
  ⟨rfl, _, _, rfl, rfl, rfl, rfl⟩

/-- Witness for C4 at the second statement of rule `Other` of the demo
program. -/
theorem C4_witness :
    pathOf (YProg.toCST demoProg) [1, 1, 1] =
      .ok [Seg.str "Other", Seg.idx (Int.ofNat 1)] ∧
    ∃ P rc, compileFromCst (YProg.toCST demoProg) = .ok P ∧
      assocGet "Other" P.rules = some rc ∧
      rc.statements.get? 1 = some (stmtSpec ⟨true, "r", demoRng 32,
        .yfact "sunny" (demoPoint 33) (demoPoint 34), demoRng 35⟩) :=
  C4_statement_index_is_append_position demoProg ⟨by decide, by decide⟩ 1
    ⟨"Other", demoRng 21,
     [⟨false, "q", demoRng 22,
       .yor (.yfact "sunny" (demoPoint 23) (demoPoint 24))
         (.yfact "q2" (demoPoint 25) (demoPoint 26))
         (demoPoint 27) (demoPoint 28),
       demoRng 29⟩,
      ⟨true, "r", demoRng 32,
       .yfact "sunny" (demoPoint 33) (demoPoint 34), demoRng 35⟩],
     demoRng 20⟩ 1
    ⟨true, "r", demoRng 32, .yfact "sunny" (demoPoint 33) (demoPoint 34),
      demoRng 35⟩
    rfl rfl

/-- C3 (amended with the distinct-rule-names precondition): for every
`fact_expr` node and the enclosing statement's `dest_fact`, navigating the
compiled Program by the recorded path resolves to exactly the recorded
entry — the fact leaf's object with its descriptor and range, and the
dest-fact object with its descriptor and range. -/
theorem C3_path_round_trip (p : YProg) (hgood : goodNames p)
    (k : Nat) (r : YRule) (j : Nat) (s : YStmt)
    (hk : p.rules.get? k = some r) (hj : r.stmts.get? j = some s)
    (π : List Dir) (d : String) (ss ee : Point)
    (hfact : exprAt s.src π = some (.yfact d ss ee)) :
    ∃ P, compileFromCst (YProg.toCST p) = .ok P ∧
      pathOf (YProg.toCST p) ([k, 1, j, 0] ++ dirLocs π) =
        .ok ([Seg.str r.name, Seg.idx (Int.ofNat j), Seg.str "src_expr"]
          ++ dirSegs π) ∧
      navPath P ([Seg.str r.name, Seg.idx (Int.ofNat j), Seg.str "src_expr"]
          ++ dirSegs π) =
        some (PNode.mk (some "fact_expr") (some d) (some (ss, ee)) []) ∧
      navPath P [Seg.str r.name, Seg.idx (Int.ofNat j), Seg.str "dest_fact"] =
        some (PNode.mk none (some s.dest) (some s.destRng) []) := by
  refine ⟨flattenProgram (progSpec p), compile_master p hgood,
    (expr_descend p k r j s hk hj π (.yfact d ss ee) hfact).2, ?_, ?_⟩
  · have h1 : navPath (flattenProgram (progSpec p))
        ([Seg.str r.name, Seg.idx (Int.ofNat j), Seg.str "src_expr"]
          ++ dirSegs π) =
        (assocGet r.name (rulesSpec p.rules)).bind fun rc =>
          (stmtIndexOf (some (.idx (Int.ofNat j)))).bind fun j2 =>
            (rc.statements.get? j2).bind fun st =>
              st.getIn ((Seg.str "src_expr" :: dirSegs π).map segKey) := rfl
    rw [h1, assocGet_rulesSpec p.rules hgood.1 r (List.get?_mem hk),
      Option.some_bind, stmtIndexOf_ofNat, Option.some_bind]
    rw [show (ruleSpec r).statements = r.stmts.map stmtSpec from rfl,
      List.get?_map, hj]
    rw [show (some s).map stmtSpec = some (stmtSpec s) from rfl,
      Option.some_bind]
    rw [show (Seg.str "src_expr" :: dirSegs π).map segKey =
      "src_expr" :: π.map dirSlot from by
        rw [List.map_cons, map_segKey_dirSegs]; rfl]
    rw [show (stmtSpec s).getIn ("src_expr" :: π.map dirSlot) =
      (exprSpec s.src).getIn (π.map dirSlot) from rfl]
    exact getIn_exprSpec π s.src _ hfact
  · have h1 : navPath (flattenProgram (progSpec p))
        [Seg.str r.name, Seg.idx (Int.ofNat j), Seg.str "dest_fact"] =
        (assocGet r.name (rulesSpec p.rules)).bind fun rc =>
          (stmtIndexOf (some (.idx (Int.ofNat j)))).bind fun j2 =>
            (rc.statements.get? j2).bind fun st =>
              st.getIn ([Seg.str "dest_fact"].map segKey) := rfl
    rw [h1, assocGet_rulesSpec p.rules hgood.1 r (List.get?_mem hk),
      Option.some_bind, stmtIndexOf_ofNat, Option.some_bind]
    rw [show (ruleSpec r).statements = r.stmts.map stmtSpec from rfl,
      List.get?_map, hj]
    rw [show (some s).map stmtSpec = some (stmtSpec s) from rfl,
      Option.some_bind]
    rfl

/-- C3 counterexample: with two rules both named `"a"`, the `fact_expr`
leaf `"b"` of the *first* rule records path
`["a", 0, "src_expr"]`, but navigating the compiled Program by that path
resolves to the `fact_expr` object of descriptor `"c"` — the second
rule's expression, which clobbered `statements[0].src_expr` — not to the
entry recorded for `"b"`. -/
theorem C3_counterexample :
    pathOf dupRoot [0, 1, 0, 0] =
      .ok [Seg.str "a", Seg.idx 0, Seg.str "src_expr"] ∧
    ∃ P, compileFromCst dupRoot = .ok P ∧
      navPath P [Seg.str "a", Seg.idx 0, Seg.str "src_expr"] =
        some (PNode.mk (some "fact_expr") (some "c")
          (some (demoPoint 9, demoPoint 10)) []) ∧
      (navPath P [Seg.str "a", Seg.idx 0, Seg.str "src_expr"]).bind
          PNode.descriptor ≠ some "b" :=
  ⟨rfl, _, rfl, rfl, by decide⟩

/-- Witness for C3 at the left operand (`sunny`) of the Weather rule's
source expression in the demo program. -/
theorem C3_witness :
    ∃ P, compileFromCst (YProg.toCST demoProg) = .ok P ∧
      pathOf (YProg.toCST demoProg) ([0, 1, 0, 0] ++ dirLocs [Dir.dl]) =
        .ok ([Seg.str "Weather", Seg.idx (Int.ofNat 0), Seg.str "src_expr"]
          ++ dirSegs [Dir.dl]) ∧
      navPath P ([Seg.str "Weather", Seg.idx (Int.ofNat 0),
          Seg.str "src_expr"] ++ dirSegs [Dir.dl]) =
        some (PNode.mk (some "fact_expr") (some "sunny")
          (some (demoPoint 3, demoPoint 4)) []) ∧
      navPath P [Seg.str "Weather", Seg.idx (Int.ofNat 0),
          Seg.str "dest_fact"] =
        some (PNode.mk none (some "nice_day") (some (demoRng 2)) []) :=
  C3_path_round_trip demoProg ⟨by decide, by decide⟩ 0
    ⟨"Weather", demoRng 1,
     [⟨true, "nice_day", demoRng 2,
       .yand (.yfact "sunny" (demoPoint 3) (demoPoint 4))
         (.ynot (.yfact "raining" (demoPoint 5) (demoPoint 6))
           (demoPoint 7) (demoPoint 8))
         (demoPoint 9) (demoPoint 10),
       demoRng 11⟩],
     demoRng 0⟩ 0
    ⟨true, "nice_day", demoRng 2,
     .yand (.yfact "sunny" (demoPoint 3) (demoPoint 4))
       (.ynot (.yfact "raining" (demoPoint 5) (demoPoint 6))
         (demoPoint 7) (demoPoint 8))
       (demoPoint 9) (demoPoint 10),
     demoRng 11⟩
    rfl rfl [Dir.dl] "sunny" (demoPoint 3) (demoPoint 4) rfl

/-! ## C10: shape of the flattened requirers -/

theorem numKeyVal_ofNat (i : Nat) : numKeyVal (.idx (Int.ofNat i)) = some i := by
  show (if (Int.ofNat i : Int) < 0 then none else some (Int.ofNat i).toNat) =
    some i
  have h0 : ¬ Int.ofNat i < 0 := Int.not_lt.mpr (Int.ofNat_nonneg i)
  rw [if_neg h0]
  rfl

theorem segKeyEqb_refl (a : Seg) : segKeyEqb a a = true := by
  cases a <;> simp [segKeyEqb]

theorem mem_assocSet {α : Type} (k : String) (v : α) :
    ∀ (l : List (String × α)) (pr : String × α),
      pr ∈ assocSet k v l → pr ∈ l ∨ pr = (k, v) := by
  intro l
  induction l with
  | nil =>
    intro pr h
    simp [assocSet] at h
    right
    simp [h]
  | cons hd tl ih =>
    obtain ⟨k2, w⟩ := hd
    intro pr h
    simp only [assocSet] at h
    by_cases hk : k2 = k
    · rw [if_pos hk] at h
      rcases List.mem_cons.mp h with h1 | h1
      · right; rw [h1, hk]
      · left; exact List.mem_cons_of_mem _ h1
    · rw [if_neg hk] at h
      rcases List.mem_cons.mp h with h1 | h1
      · left; rw [h1]; exact List.mem_cons_self _ _
      · rcases ih pr h1 with h2 | h2
        · left; exact List.mem_cons_of_mem _ h2
        · right; exact h2

theorem assocSet_map_fst {α : Type} (k : String) (v : α) :
    ∀ (l : List (String × α)) (w : α), assocGet k l = some w →
      (assocSet k v l).map Prod.fst = l.map Prod.fst := by
  intro l
  induction l with
  | nil => intro w h; simp [assocGet] at h
  | cons hd tl ih =>
    obtain ⟨k2, w2⟩ := hd
    intro w h
    simp only [assocGet] at h
    by_cases hk : k2 = k
    · rw [if_pos hk] at h
      simp [assocSet, hk]
    · rw [if_neg hk] at h
      simp only [assocSet, if_neg hk, List.map_cons]
      rw [ih w h]

/-- Well-formedness of a nested requirers map: rule keys pairwise
distinct; each statement-key list holds only non-negative integer keys,
pairwise distinct under JS property-key equality. -/
def ReqWF (req : List (String × List Seg)) : Prop :=
  ((req.map Prod.fst).Nodup) ∧
  ∀ pr ∈ req, (∀ sg ∈ pr.2, ∃ i : Nat, sg = Seg.idx (Int.ofNat i)) ∧
    pr.2.Pairwise (fun a b => segKeyEqb a b = false)

theorem ReqWF_insert (req : List (String × List Seg)) (rn : String) (i : Nat)
    (h : ReqWF req) :
    ReqWF (requirersInsert req rn (.idx (Int.ofNat i))) := by
  obtain ⟨hkeys, hprs⟩ := h
  unfold requirersInsert
  cases hget : assocGet rn req with
  | none =>
    refine ⟨?_, ?_⟩
    · rw [List.map_append]
      apply List.Nodup.append hkeys (List.nodup_singleton rn)
      intro a ha hb
      simp only [List.map_cons, List.map_nil, List.mem_singleton] at hb
      rw [hb] at ha
      exact not_mem_of_assocGet_none rn req hget ha
    · intro pr hpr
      rcases List.mem_append.mp hpr with h1 | h1
      · exact hprs pr h1
      · simp only [List.mem_singleton] at h1
        subst h1
        refine ⟨?_, ?_⟩
        · intro sg hsg
          simp only [List.mem_singleton] at hsg
          subst hsg
          exact ⟨i, rfl⟩
        · exact List.pairwise_singleton _ _
  | some ks =>
    show ReqWF (if (ks.any fun k => segKeyEqb k (Seg.idx (Int.ofNat i))) = true
      then req else assocSet rn (ks ++ [Seg.idx (Int.ofNat i)]) req)
    by_cases hany : (ks.any fun kk => segKeyEqb kk (.idx (Int.ofNat i))) = true
    · rw [if_pos hany]
      exact ⟨hkeys, hprs⟩
    · rw [if_neg hany]
      have hnone : ∀ kk ∈ ks, segKeyEqb kk (.idx (Int.ofNat i)) = false := by
        intro kk hkk
        rcases Bool.eq_false_or_eq_true (segKeyEqb kk (.idx (Int.ofNat i)))
          with h2 | h2
        · exact absurd (List.any_eq_true.mpr ⟨kk, hkk, h2⟩) hany
        · exact h2
      have hold := hprs (rn, ks) (assocGet_mem rn ks req hget)
      refine ⟨?_, ?_⟩
      · rw [assocSet_map_fst rn _ req ks hget]
        exact hkeys
      · intro pr hpr
        rcases mem_assocSet rn _ req pr hpr with h1 | h1
        · exact hprs pr h1
        · subst h1
          refine ⟨?_, ?_⟩
          · intro sg hsg
            rcases List.mem_append.mp hsg with h2 | h2
            · exact hold.1 sg h2
            · simp only [List.mem_singleton] at h2
              subst h2
              exact ⟨i, rfl⟩
          · rw [List.pairwise_append]
            refine ⟨hold.2, List.pairwise_singleton _ _, ?_⟩
            intro a ha b hb
            simp only [List.mem_singleton] at hb
            subst hb
            exact hnone a ha

/-- Every fact entry's nested requirers map is well formed. -/
def factsWF (F : List (String × FactIn)) : Prop :=
  ∀ df ∈ F, ReqWF df.2.requirers

theorem factsWF_factsEnsure (F : List (String × FactIn)) (d : String)
    (h : factsWF F) : factsWF (factsEnsure F d) := by
  unfold factsEnsure
  cases hg : assocGet d F with
  | some _ => exact h
  | none =>
    intro df hdf
    rcases List.mem_append.mp hdf with h1 | h1
    · exact h df h1
    · simp only [List.mem_singleton] at h1
      subst h1
      exact ⟨List.nodup_nil, fun pr hpr => absurd hpr (List.not_mem_nil pr)⟩

theorem factsWF_applyEvent (F : List (String × FactIn)) (ev : FactEvent)
    (h : factsWF F) : factsWF (applyEvent F ev) := by
  cases ev with
  | det d rn i pos =>
    have h1 := factsWF_factsEnsure F d h
    unfold applyEvent factModify
    dsimp only
    cases hg : assocGet d (factsEnsure F d) with
    | none => exact h1
    | some fa =>
      intro df hdf
      rcases mem_assocSet d _ _ df hdf with h2 | h2
      · exact h1 df h2
      · subst h2
        exact h1 (d, fa) (assocGet_mem d fa _ hg)
  | req d rn i =>
    have h1 := factsWF_factsEnsure F d h
    unfold applyEvent factModify
    dsimp only
    cases hg : assocGet d (factsEnsure F d) with
    | none => exact h1
    | some fa =>
      intro df hdf
      rcases mem_assocSet d _ _ df hdf with h2 | h2
      · exact h1 df h2
      · subst h2
        exact ReqWF_insert fa.requirers rn i
          (h1 (d, fa) (assocGet_mem d fa _ hg))

theorem factsWF_foldl : ∀ (evts : List FactEvent) (F : List (String × FactIn)),
    factsWF F → factsWF (evts.foldl applyEvent F) := by
  intro evts
  induction evts with
  | nil => intro F h; exact h
  | cons ev evts ih =>
    intro F h
    rw [List.foldl_cons]
    exact ih (applyEvent F ev) (factsWF_applyEvent F ev h)

theorem factsWF_factsSpec (p : YProg) : factsWF (factsSpec p) :=
  factsWF_foldl (progEvents p) [] (fun df h => absurd h (List.not_mem_nil df))

theorem insertByFst_perm (x : Nat × Seg) :
    ∀ l, (insertByFst x l).Perm (x :: l) := by
  intro l
  induction l with
  | nil => exact List.Perm.refl _
  | cons y ys ih =>
    unfold insertByFst
    by_cases h : x.1 < y.1
    · rw [if_pos h]
    · rw [if_neg h]
      exact (ih.cons y).trans (List.Perm.swap x y ys)

theorem sortByFst_perm : ∀ l : List (Nat × Seg), (sortByFst l).Perm l := by
  intro l
  induction l with
  | nil => exact List.Perm.refl _
  | cons x xs ih =>
    exact (insertByFst_perm x (sortByFst xs)).trans (ih.cons x)

theorem insertByFstStr_perm (x : Nat × String) :
    ∀ l, (insertByFstStr x l).Perm (x :: l) := by
  intro l
  induction l with
  | nil => exact List.Perm.refl _
  | cons y ys ih =>
    unfold insertByFstStr
    by_cases h : x.1 < y.1
    · rw [if_pos h]
    · rw [if_neg h]
      exact (ih.cons y).trans (List.Perm.swap x y ys)

theorem sortByFstStr_perm : ∀ l : List (Nat × String),
    (sortByFstStr l).Perm l := by
  intro l
  induction l with
  | nil => exact List.Perm.refl _
  | cons x xs ih =>
    exact (insertByFstStr_perm x (sortByFstStr xs)).trans (ih.cons x)

theorem map_snd_filterMap_num : ∀ (ks : List Seg),
    ((ks.filterMap fun k => (numKeyVal k).map fun n2 => (n2, k)).map
      Prod.snd) = ks.filter fun k => (numKeyVal k).isSome := by
  intro ks
  induction ks with
  | nil => rfl
  | cons k ks ih =>
    rw [List.filterMap_cons, List.filter_cons]
    cases hv : numKeyVal k with
    | none => simp [hv, ih]
    | some n2 => simp [hv, ih]

theorem map_snd_filterMap_numStr : ∀ (ks : List String),
    ((ks.filterMap fun k => (numKeyValStr k).map fun n2 => (n2, k)).map
      Prod.snd) = ks.filter fun k => (numKeyValStr k).isSome := by
  intro ks
  induction ks with
  | nil => rfl
  | cons k ks ih =>
    rw [List.filterMap_cons, List.filter_cons]
    cases hv : numKeyValStr k with
    | none => simp [hv, ih]
    | some n2 => simp [hv, ih]

theorem orderKeysJS_perm (ks : List Seg)
    (h : ∀ sg ∈ ks, (numKeyVal sg).isSome) :
    (orderKeysJS ks).Perm ks := by
  unfold orderKeysJS
  have h2 : (ks.filter fun k => numKeyVal k = none) = [] := by
    rw [List.filter_eq_nil]
    intro a ha
    have h3 := h a ha
    cases hv : numKeyVal a with
    | none => rw [hv] at h3; cases h3
    | some n2 => simp [hv]
  rw [h2, List.append_nil]
  refine ((sortByFst_perm _).map Prod.snd).trans ?_
  rw [map_snd_filterMap_num]
  rw [List.filter_eq_self.mpr h]

theorem orderKeysStrJS_perm (ks : List String) :
    (orderKeysStrJS ks).Perm ks := by
  unfold orderKeysStrJS
  refine (((sortByFstStr_perm _).map Prod.snd).append_right _).trans ?_
  rw [map_snd_filterMap_numStr]
  have hc : (ks.filter fun k => numKeyValStr k = none) =
      ks.filter fun k => !(numKeyValStr k).isSome := by
    apply List.filter_congr
    intro a _
    cases numKeyValStr a <;> simp
  rw [hc]
  exact List.filter_append_perm _ ks

theorem nodup_of_pairwise_neqb (ks : List Seg)
    (h : ks.Pairwise (fun a b => segKeyEqb a b = false)) : ks.Nodup := by
  refine h.imp ?_
  intro a b hab he
  subst he
  rw [segKeyEqb_refl] at hab
  cases hab

theorem mem_orderKeysJS (ks : List Seg)
    (h : ∀ sg ∈ ks, (numKeyVal sg).isSome)
    (kk : Seg) (hm : kk ∈ orderKeysJS ks) : kk ∈ ks :=
  (orderKeysJS_perm ks h).subset hm

theorem nodup_req_flatMap (req : List (String × List Seg))
    (hprs : ∀ pr ∈ req,
      (∀ sg ∈ pr.2, ∃ i : Nat, sg = Seg.idx (Int.ofNat i)) ∧
      pr.2.Pairwise (fun a b => segKeyEqb a b = false)) :
    ∀ (rks : List String), rks.Nodup →
      (rks.flatMap fun rk =>
        match assocGet rk req with
        | none => []
        | some ks => (orderKeysJS ks).map fun kk =>
            [Seg.str rk, parseIntSeg kk]).Nodup := by
  intro rks
  induction rks with
  | nil => intro _; simp
  | cons rk rks ih =>
    intro hnd
    rw [List.flatMap_cons]
    have hdisj : List.Disjoint
        (match assocGet rk req with
          | none => ([] : List (List Seg))
          | some ks => (orderKeysJS ks).map fun kk =>
              [Seg.str rk, parseIntSeg kk])
        (rks.flatMap fun rk2 =>
          match assocGet rk2 req with
          | none => []
          | some ks => (orderKeysJS ks).map fun kk =>
              [Seg.str rk2, parseIntSeg kk]) := by
      intro path h1 h2
      cases hget : assocGet rk req with
      | none =>
        rw [hget] at h1
        exact absurd h1 (List.not_mem_nil path)
      | some ks =>
        rw [hget] at h1
        have h1b : path ∈ (orderKeysJS ks).map fun kk =>
          [Seg.str rk, parseIntSeg kk] := h1
        rw [List.mem_map] at h1b
        obtain ⟨kk, _, hpeq⟩ := h1b
        rw [List.mem_flatMap] at h2
        obtain ⟨rk2, hrk2, hpin2⟩ := h2
        cases hget2 : assocGet rk2 req with
        | none =>
          rw [hget2] at hpin2
          exact absurd hpin2 (List.not_mem_nil path)
        | some ks2 =>
          rw [hget2] at hpin2
          have h2b : path ∈ (orderKeysJS ks2).map fun kk =>
            [Seg.str rk2, parseIntSeg kk] := hpin2
          rw [List.mem_map] at h2b
          obtain ⟨kk2, _, hpeq2⟩ := h2b
          have heq : rk = rk2 := by
            have h3 := hpeq.trans hpeq2.symm
            injection h3 with h4 _
            injection h4 with h5
          subst heq
          exact (List.nodup_cons.mp hnd).1 hrk2
    refine List.Nodup.append ?_ (ih (List.nodup_cons.mp hnd).2) hdisj
    cases hget : assocGet rk req with
    | none => exact List.nodup_nil
    | some ks =>
      have hpr := hprs (rk, ks) (assocGet_mem rk ks _ hget)
      have hsome : ∀ sg ∈ ks, (numKeyVal sg).isSome := by
        intro sg hsg
        obtain ⟨i, hi⟩ := hpr.1 sg hsg
        subst hi
        rw [numKeyVal_ofNat]
        rfl
      have hnodup_ks : (orderKeysJS ks).Nodup :=
        ((orderKeysJS_perm ks hsome).nodup_iff).mpr
          (nodup_of_pairwise_neqb ks hpr.2)
      refine List.Nodup.map_on ?_ hnodup_ks
      intro x hx y hy hfeq
      obtain ⟨i, hi⟩ := hpr.1 x (mem_orderKeysJS ks hsome x hx)
      obtain ⟨i2, hi2⟩ := hpr.1 y (mem_orderKeysJS ks hsome y hy)
      subst hi
      subst hi2
      injection hfeq with _ h6
      injection h6 with h7 _

theorem flattenFact_props (f : FactIn)
    (hkeys : ((f.requirers.map Prod.fst).Nodup))
    (hprs : ∀ pr ∈ f.requirers,
      (∀ sg ∈ pr.2, ∃ i : Nat, sg = Seg.idx (Int.ofNat i)) ∧
      pr.2.Pairwise (fun a b => segKeyEqb a b = false)) :
    (∀ path ∈ (flattenFact f).requirers,
      ∃ rn i, path = [Seg.str rn, Seg.idx (Int.ofNat i)]) ∧
    (flattenFact f).requirers.Nodup := by
  constructor
  · intro path hpath
    have hp2 : path ∈ (orderKeysStrJS (f.requirers.map Prod.fst)).flatMap
        (fun rk => match assocGet rk f.requirers with
          | none => []
          | some ks => (orderKeysJS ks).map fun kk =>
              [Seg.str rk, parseIntSeg kk]) := hpath
    rw [List.mem_flatMap] at hp2
    obtain ⟨rk, _, hpin⟩ := hp2
    cases hget : assocGet rk f.requirers with
    | none =>
      rw [hget] at hpin
      exact absurd hpin (List.not_mem_nil path)
    | some ks =>
      rw [hget] at hpin
      have hpin2 : path ∈ (orderKeysJS ks).map fun kk =>
        [Seg.str rk, parseIntSeg kk] := hpin
      rw [List.mem_map] at hpin2
      obtain ⟨kk, hkk, hpeq⟩ := hpin2
      have hpr := hprs (rk, ks) (assocGet_mem rk ks _ hget)
      have hsome : ∀ sg ∈ ks, (numKeyVal sg).isSome := by
        intro sg hsg
        obtain ⟨i, hi⟩ := hpr.1 sg hsg
        subst hi
        rw [numKeyVal_ofNat]
        rfl
      obtain ⟨i, hi⟩ := hpr.1 kk (mem_orderKeysJS ks hsome kk hkk)
      subst hi
      exact ⟨rk, i, by rw [← hpeq]; rfl⟩
  · have hkeys2 : (orderKeysStrJS (f.requirers.map Prod.fst)).Nodup :=
      ((orderKeysStrJS_perm _).nodup_iff).mpr hkeys
    exact nodup_req_flatMap f.requirers hprs _ hkeys2

/-- C10: in every program returned by `compileFromCst` (grammar-image
tree, well-formed rule names), each fact's flattened `requirers` list
holds paths of exactly two components — a rule-name string and a
non-negative statement index — and no two entries coincide, i.e. there is
at most one entry per distinct (rule name, statement index) pair even
when the fact occurs several times inside one statement. -/
theorem C10_requirers_flat_and_deduplicated (p : YProg) (hgood : goodNames p)
    (P : ProgramOut) (hP : compileFromCst (YProg.toCST p) = .ok P) :
    ∀ df ∈ P.facts,
      (∀ path ∈ df.2.requirers,
        ∃ rn i, path = [Seg.str rn, Seg.idx (Int.ofNat i)]) ∧
      df.2.requirers.Nodup := by
  rw [compile_master p hgood] at hP
  injection hP with hP
  subst hP
  intro df hdf
  have hdf2 : df ∈ (factsSpec p).map fun d0f => (d0f.1, flattenFact d0f.2) :=
    hdf
  rw [List.mem_map] at hdf2
  obtain ⟨df0, hdf0, heq⟩ := hdf2
  subst heq
  have hwf := factsWF_factsSpec p df0 hdf0
  exact flattenFact_props df0.2 hwf.1 hwf.2

/-- Witness for C10 at the fact `sunny` of the demo program, which is
required by three distinct statements across two rules. -/
theorem C10_witness :
    (∀ path ∈ (("sunny", flattenFact ⟨[], [("Weather", [Seg.idx 0]),
        ("Other", [Seg.idx 0, Seg.idx 1])]⟩) : String × FactOut).2.requirers,
      ∃ rn i, path = [Seg.str rn, Seg.idx (Int.ofNat i)]) ∧
    (("sunny", flattenFact ⟨[], [("Weather", [Seg.idx 0]),
      ("Other", [Seg.idx 0, Seg.idx 1])]⟩) :
        String × FactOut).2.requirers.Nodup :=
  C10_requirers_flat_and_deduplicated demoProg ⟨by decide, by decide⟩
    (flattenProgram (progSpec demoProg)) rfl
    ("sunny", flattenFact ⟨[], [("Weather", [Seg.idx 0]),
      ("Other", [Seg.idx 0, Seg.idx 1])]⟩)
    (List.get?_mem (show (flattenProgram (progSpec demoProg)).facts.get? 1 =
      some ("sunny", flattenFact ⟨[], [("Weather", [Seg.idx 0]),
        ("Other", [Seg.idx 0, Seg.idx 1])]⟩) from rfl))
